import Mathlib

set_option linter.unusedVariables false

/-!
# Verification of the Huffman text-compression program (src/main.py)

Shallow embedding of the `HuffmanCoding` class from `src/main.py` and of the
parts of the Python runtime it relies on (the `heapq` module, `collections.Counter`,
`str.split` / `str.strip`, `int(s, 2)`, `"{0:08b}".format`, `bin(b)[2:].rjust(8,'0')`,
dict insertion/overwrite semantics).

Conventions:
* Python strings are `List Char`; bytes are `Nat`s; a file of lines is a
  `List (List Char)` (each line keeps its trailing newline, as `f"... \n"` writes it
  and as iterating over a file yields it).
* Fallible Python code (KeyError, ValueError, exit(0), unpacking errors) is
  modelled with `Option`: `none` is an uncaught exception / fatal exit.
* `HeapNode` objects are built by the source in exactly two shapes: leaves
  (`HeapNode(key, freq)`, children `None`) and merged internal nodes
  (`HeapNode(None, f)` with both children set), so the embedding is a two-
  constructor tree.  `heapq` orders nodes with `__lt__` only, which compares
  `freq`.
-/

/-- A node of the Huffman tree (`HuffmanCoding.HeapNode`): either a leaf carrying a
character, or an internal node produced by `merge_nodes` with exactly two children. -/
inductive HNode where
  | leaf (char : Char) (freq : Nat)
  | node (freq : Nat) (left : HNode) (right : HNode)
deriving DecidableEq, Repr

/-- The `freq` attribute, the only data `__lt__` compares. -/
def HNode.freq : HNode → Nat
  | .leaf _ f => f
  | .node f _ _ => f

/-- Characters of the leaves, in left-to-right order. -/
def HNode.leafChars : HNode → List Char
  | .leaf c _ => [c]
  | .node _ l r => l.leafChars ++ r.leafChars

/-- Leaf (char, freq) pairs, in left-to-right order. -/
def HNode.leaves : HNode → List (Char × Nat)
  | .leaf c f => [(c, f)]
  | .node _ l r => l.leaves ++ r.leaves

instance : Inhabited HNode := ⟨.leaf ' ' 0⟩

/-- Indexing a Python list of heap nodes (`heap[i]`); out-of-range reads never
happen on the paths the source exercises, the default is irrelevant. -/
def lget (l : List HNode) (i : Nat) : HNode := l.getD i default

/-- Parent index in a binary heap: `(pos - 1) >> 1`. -/
def par (j : Nat) : Nat := (j - 1) / 2

theorem lget_nil (i : Nat) : lget [] i = default := by cases i <;> rfl

theorem lget_cons_zero (a : HNode) (l : List HNode) : lget (a :: l) 0 = a := rfl

theorem lget_cons_succ (a : HNode) (l : List HNode) (i : Nat) :
    lget (a :: l) (i + 1) = lget l i := rfl

theorem lget_set_self : ∀ (l : List HNode) (i : Nat) (x : HNode), i < l.length →
    lget (l.set i x) i = x := by
  intro l
  induction l with
  | nil => intro i x h; simp at h
  | cons a t ih =>
    intro i x h
    cases i with
    | zero => rfl
    | succ j =>
      simp only [List.set, lget_cons_succ]
      exact ih j x (by simpa using h)

theorem lget_set_ne : ∀ (l : List HNode) (i j : Nat) (x : HNode), i ≠ j →
    lget (l.set i x) j = lget l j := by
  intro l
  induction l with
  | nil => intro i j x _; cases i <;> rfl
  | cons a t ih =>
    intro i j x hij
    cases i with
    | zero =>
      cases j with
      | zero => exact absurd rfl hij
      | succ k => rfl
    | succ i' =>
      cases j with
      | zero => rfl
      | succ k =>
        simp only [List.set, lget_cons_succ]
        exact ih i' k x (by omega)

theorem set_lget_self : ∀ (l : List HNode) (i : Nat), i < l.length →
    l.set i (lget l i) = l := by
  intro l
  induction l with
  | nil => intro i h; simp at h
  | cons a t ih =>
    intro i h
    cases i with
    | zero => rfl
    | succ j => simp only [List.set, lget_cons_succ]; rw [ih j (by simpa using h)]

theorem lget_append_left : ∀ (l m : List HNode) (i : Nat), i < l.length →
    lget (l ++ m) i = lget l i := by
  intro l
  induction l with
  | nil => intro m i h; simp at h
  | cons a t ih =>
    intro m i h
    cases i with
    | zero => rfl
    | succ j =>
      simp only [List.cons_append, lget_cons_succ]
      exact ih m j (by simpa using h)

theorem lget_append_last : ∀ (l : List HNode) (x : HNode), lget (l ++ [x]) l.length = x := by
  intro l x
  induction l with
  | nil => rfl
  | cons a t ih => simpa using ih

/-- `heapq._siftdown(heap, startpos, pos)` after reading `newitem = heap[pos]`:
walk `newitem` up toward `startpos`, moving larger parents down. -/
def siftdownLoop (heap : List HNode) (startpos pos : Nat) (newitem : HNode) : List HNode :=
  if h : startpos < pos then
    -- parentpos = (pos - 1) >> 1, parent = heap[parentpos]
    if newitem.freq < (lget heap ((pos - 1) / 2)).freq then
      siftdownLoop (heap.set pos (lget heap ((pos - 1) / 2))) startpos ((pos - 1) / 2) newitem
    else
      heap.set pos newitem
  else
    heap.set pos newitem
termination_by pos
decreasing_by
  omega

/-- `heapq._siftdown(heap, startpos, pos)`. -/
def siftdown (heap : List HNode) (startpos pos : Nat) : List HNode :=
  siftdownLoop heap startpos pos (lget heap pos)

/-- Child selection inside `heapq._siftup`: the index of the child of `pos` to
promote into the hole (the right child only when it exists and is not larger). -/
def childSel (heap : List HNode) (pos endpos : Nat) : Nat :=
  -- childpos = 2*pos + 1, rightpos = childpos + 1; move to the right child iff
  -- `rightpos < endpos and not heap[childpos] < heap[rightpos]`
  if 2 * pos + 2 < endpos ∧ ¬ (lget heap (2 * pos + 1)).freq < (lget heap (2 * pos + 2)).freq
  then 2 * pos + 2 else 2 * pos + 1

/-- The loop of `heapq._siftup(heap, pos)` (continued): sink the hole at `pos`
to a leaf, always promoting the smaller child. -/
def siftupLoop (heap : List HNode) (pos endpos : Nat) : List HNode × Nat :=
  if h : 2 * pos + 1 < endpos then
    siftupLoop (heap.set pos (lget heap (childSel heap pos endpos))) (childSel heap pos endpos) endpos
  else
    (heap, pos)
termination_by endpos - pos
decreasing_by
  unfold childSel
  split <;> omega

/-- `heapq._siftup(heap, pos)`: sink the hole to a leaf, drop `newitem` there and
sift it back down toward `pos`. -/
def siftup (heap : List HNode) (pos : Nat) : List HNode :=
  let newitem := lget heap pos
  let r := siftupLoop heap pos heap.length
  siftdownLoop (r.1.set r.2 newitem) pos r.2 newitem

/-- `heapq.heappush(heap, item)`: append, then sift the new last element down
toward the root. -/
def heappush (heap : List HNode) (item : HNode) : List HNode :=
  siftdown (heap ++ [item]) 0 ((heap ++ [item]).length - 1)

/-- `heapq.heappop(heap)`: pop the last element; if the heap is still non-empty,
return the old root after moving the last element there and sifting up.
`none` models the `IndexError` on an empty heap. -/
def heappop : List HNode → Option (HNode × List HNode)
  | [] => none
  | a :: t =>
    let lastelt := (a :: t).getLast (List.cons_ne_nil a t)
    let rest := (a :: t).dropLast
    if rest.isEmpty then some (lastelt, [])
    else some (lget rest 0, siftup (rest.set 0 lastelt) 0)

theorem siftdownLoop_length (startpos : Nat) : ∀ (pos : Nat) (l : List HNode) (x : HNode),
    (siftdownLoop l startpos pos x).length = l.length := by
  intro pos
  induction pos using Nat.strong_induction_on with
  | _ pos ih =>
    intro l x
    unfold siftdownLoop
    split
    · split
      · rw [ih ((pos - 1) / 2) (by omega)]
        simp
      · simp
    · simp

theorem childSel_gt (heap : List HNode) (pos endpos : Nat) :
    pos < childSel heap pos endpos := by
  unfold childSel; split <;> omega

theorem childSel_lt (heap : List HNode) (pos endpos : Nat)
    (h : 2 * pos + 1 < endpos) : childSel heap pos endpos < endpos := by
  unfold childSel; split <;> omega

theorem childSel_set (heap : List HNode) (pos endpos : Nat) (x : HNode) :
    childSel (heap.set pos x) pos endpos = childSel heap pos endpos := by
  unfold childSel
  rw [lget_set_ne _ _ _ _ (by omega), lget_set_ne _ _ _ _ (by omega)]

theorem siftupLoop_length : ∀ (n e p : Nat), e - p = n → ∀ (l : List HNode),
    (siftupLoop l p e).1.length = l.length := by
  intro n
  induction n using Nat.strong_induction_on with
  | _ n ih =>
    intro e p hn l
    unfold siftupLoop
    split
    · rename_i h
      rw [ih (e - childSel l p e) (by have := childSel_gt l p e; omega) e _ rfl]
      simp
    · rfl

theorem siftup_length (l : List HNode) (p : Nat) : (siftup l p).length = l.length := by
  unfold siftup
  rw [siftdownLoop_length, List.length_set, siftupLoop_length (l.length - p) l.length p rfl]

theorem heappush_length (l : List HNode) (x : HNode) :
    (heappush l x).length = l.length + 1 := by
  unfold heappush siftdown
  rw [siftdownLoop_length]
  simp

/-- Arbitrary values at a set position can be exchanged with the head, up to
permutation. -/
theorem cons_set_swap : ∀ (t : List HNode) (k : Nat) (u v : HNode), k < t.length →
    List.Perm (u :: t.set k v) (v :: t.set k u) := by
  intro t
  induction t with
  | nil => intro k u v h; simp at h
  | cons d t' ih =>
    intro k u v h
    cases k with
    | zero => exact List.Perm.swap v u t'
    | succ k' =>
      simp only [List.set]
      refine List.Perm.trans (List.Perm.swap d u _) ?_
      refine List.Perm.trans ((ih k' u v (by simpa using h)).cons d) ?_
      exact List.Perm.swap v d _

theorem set_set_perm₁ : ∀ (i : Nat) (l : List HNode) (j : Nat) (x : HNode), i < j →
    j < l.length → List.Perm ((l.set j (lget l i)).set i x) (l.set j x) := by
  intro i
  induction i with
  | zero =>
    intro l j x hij hj
    cases l with
    | nil => simp at hj
    | cons c t =>
      cases j with
      | zero => omega
      | succ k =>
        simp only [lget_cons_zero, List.set]
        exact cons_set_swap t k x c (by simpa using hj)
  | succ i' ih =>
    intro l j x hij hj
    cases l with
    | nil => simp at hj
    | cons c t =>
      cases j with
      | zero => omega
      | succ k =>
        simp only [lget_cons_succ, List.set]
        exact (ih t k x (by omega) (by simpa using hj)).cons c

theorem set_set_perm₂ : ∀ (i : Nat) (l : List HNode) (j : Nat) (x : HNode), i < j →
    j < l.length → List.Perm ((l.set i (lget l j)).set j x) (l.set i x) := by
  intro i
  induction i with
  | zero =>
    intro l j x hij hj
    cases l with
    | nil => simp at hj
    | cons c t =>
      cases j with
      | zero => omega
      | succ k =>
        simp only [lget_cons_succ, List.set]
        have hk : k < t.length := by simpa using hj
        have h1 := cons_set_swap t k (lget t k) x hk
        rwa [set_lget_self t k hk] at h1
  | succ i' ih =>
    intro l j x hij hj
    cases l with
    | nil => simp at hj
    | cons c t =>
      cases j with
      | zero => omega
      | succ k =>
        simp only [lget_cons_succ, List.set]
        exact (ih t k x (by omega) (by simpa using hj)).cons c

theorem siftdownLoop_perm : ∀ (pos : Nat) (l : List HNode) (x : HNode), pos < l.length →
    List.Perm (siftdownLoop l 0 pos x) (l.set pos x) := by
  intro pos
  induction pos using Nat.strong_induction_on with
  | _ pos ih =>
    intro l x hpos
    unfold siftdownLoop
    split
    · split
      · rename_i h0 _
        refine List.Perm.trans
          (ih ((pos - 1) / 2) (by omega) _ x (by simp only [List.length_set]; omega)) ?_
        exact set_set_perm₁ ((pos - 1) / 2) l pos x (by omega) hpos
      · exact List.Perm.refl _
    · exact List.Perm.refl _

theorem siftupLoop_pos_lt : ∀ (n e p : Nat), e - p = n → p < e → ∀ (l : List HNode),
    (siftupLoop l p e).2 < e := by
  intro n
  induction n using Nat.strong_induction_on with
  | _ n ih =>
    intro e p hn hpe l
    unfold siftupLoop
    split
    · rename_i h
      exact ih (e - childSel l p e) (by have := childSel_gt l p e; omega) e _ rfl
        (childSel_lt l p e h) _
    · exact hpe

theorem siftupLoop_perm : ∀ (n e p : Nat), e - p = n → ∀ (l : List HNode) (x : HNode),
    p < l.length → e = l.length →
    List.Perm ((siftupLoop l p e).1.set (siftupLoop l p e).2 x) (l.set p x) := by
  intro n
  induction n using Nat.strong_induction_on with
  | _ n ih =>
    intro e p hn l x hp he
    unfold siftupLoop
    split
    · rename_i h
      have hcp : childSel l p e < l.length := he ▸ childSel_lt l p e h
      refine List.Perm.trans
        (ih (e - childSel l p e) (by have := childSel_gt l p e; omega) e _ rfl _ x
          (by simpa using hcp) (by simpa using he)) ?_
      exact set_set_perm₂ p l (childSel l p e) x (childSel_gt l p e) hcp
    · exact List.Perm.refl _

theorem siftup_perm (l : List HNode) (h : 0 < l.length) : List.Perm (siftup l 0) l := by
  show List.Perm (siftdownLoop ((siftupLoop l 0 l.length).1.set (siftupLoop l 0 l.length).2
    (lget l 0)) 0 (siftupLoop l 0 l.length).2 (lget l 0)) l
  have hfp : (siftupLoop l 0 l.length).2 < l.length :=
    siftupLoop_pos_lt (l.length - 0) l.length 0 rfl h l
  have h1 : ((siftupLoop l 0 l.length).1.set (siftupLoop l 0 l.length).2 (lget l 0)).length
      = l.length := by
    rw [List.length_set, siftupLoop_length (l.length - 0) l.length 0 rfl]
  refine List.Perm.trans (siftdownLoop_perm _ _ _ (by rw [h1]; exact hfp)) ?_
  rw [List.set_set]
  refine List.Perm.trans (siftupLoop_perm (l.length - 0) l.length 0 rfl l (lget l 0) h rfl) ?_
  rw [set_lget_self l 0 h]

theorem heappush_perm (l : List HNode) (x : HNode) :
    List.Perm (heappush l x) (x :: l) := by
  unfold heappush siftdown
  have hlen : (l ++ [x]).length - 1 = l.length := by simp
  rw [hlen, lget_append_last]
  refine List.Perm.trans (siftdownLoop_perm l.length (l ++ [x]) x (by simp)) ?_
  rw [show (l ++ [x]).set l.length x = l ++ [x] by
    have := set_lget_self (l ++ [x]) l.length (by simp)
    rwa [lget_append_last] at this]
  exact List.perm_append_singleton x l

theorem heappop_nil : heappop [] = none := rfl

theorem heappop_single (a : HNode) : heappop [a] = some (a, []) := rfl

theorem heappop_cons_cons (a b : HNode) (t : List HNode) :
    heappop (a :: b :: t) =
      some (a, siftup ((a :: (b :: t).dropLast).set 0 ((a :: b :: t).getLast (by simp))) 0) := rfl

theorem heappop_isSome (l : List HNode) (hl : l ≠ []) : (heappop l).isSome := by
  match l with
  | [a] => rfl
  | a :: b :: t => rfl

theorem heappop_length (l : List HNode) (n : HNode) (h' : List HNode)
    (h : heappop l = some (n, h')) : h'.length + 1 = l.length := by
  match l with
  | [] => simp [heappop_nil] at h
  | [a] =>
    rw [heappop_single] at h
    injection h with h
    injection h with h1 h2
    subst h2; rfl
  | a :: b :: t =>
    rw [heappop_cons_cons] at h
    injection h with h
    injection h with h1 h2
    subst h2
    rw [siftup_length, List.length_set]
    simp

theorem heappop_perm (l : List HNode) (n : HNode) (h' : List HNode)
    (h : heappop l = some (n, h')) : List.Perm l (n :: h') := by
  match l with
  | [] => simp [heappop_nil] at h
  | [a] =>
    rw [heappop_single] at h
    injection h with h
    injection h with h1 h2
    subst h1; subst h2
    exact List.Perm.refl _
  | a :: b :: t =>
    rw [heappop_cons_cons] at h
    injection h with h
    injection h with h1 h2
    subst h1; subst h2
    have hlast : (a :: (b :: t).dropLast).set 0 ((a :: b :: t).getLast (by simp))
        = (a :: b :: t).getLast (by simp) :: (b :: t).dropLast := rfl
    have hperm : List.Perm (siftup ((a :: (b :: t).dropLast).set 0
        ((a :: b :: t).getLast (by simp))) 0)
        ((a :: b :: t).getLast (by simp) :: (b :: t).dropLast) := by
      rw [hlast]
      exact siftup_perm _ (by simp)
    refine List.Perm.trans ?_ ((hperm.symm).cons a)
    have hdecomp : a :: b :: t = (a :: (b :: t).dropLast) ++ [(a :: b :: t).getLast (by simp)] := by
      have := @List.dropLast_append_getLast _ (a :: b :: t) (by simp)
      exact this.symm
    nth_rewrite 1 [hdecomp]
    simp only [List.cons_append]
    exact ((List.perm_append_singleton _ _)).cons a

/-- `HuffmanCoding.merge_nodes`: repeatedly pop the two smallest nodes and push
an internal node combining them (first popped on the left), until one node is left. -/
def mergeNodes (heap : List HNode) : List HNode :=
  if h : 1 < heap.length then
    match h1 : heappop heap with
    | some (node1, heap1) =>
      match h2 : heappop heap1 with
      | some (node2, heap2) =>
        mergeNodes (heappush heap2 (HNode.node (node1.freq + node2.freq) node1 node2))
      | none => heap1
    | none => heap
  else
    heap
termination_by heap.length
decreasing_by
  have e1 := heappop_length _ _ _ h1
  have e2 := heappop_length _ _ _ h2
  rw [heappush_length]
  omega

theorem par_lt (j : Nat) (h : 0 < j) : par j < j := by unfold par; omega

theorem par_child (j p : Nat) (h0 : 0 < j) (h : par j = p) : j = 2 * p + 1 ∨ j = 2 * p + 2 := by
  unfold par at h; omega

theorem par_two_one (p : Nat) : par (2 * p + 1) = p := by unfold par; omega

theorem par_two_two (p : Nat) : par (2 * p + 2) = p := by unfold par; omega

/-- The `heapq` min-heap invariant: every element is at most its children
(comparisons in `heapq` use `HeapNode.__lt__`, i.e. `freq`). -/
def IsHeap (l : List HNode) : Prop :=
  ∀ j, 0 < j → j < l.length → (lget l (par j)).freq ≤ (lget l j).freq

/-- Precondition of `_siftdown`: writing `x` at `pos` yields a heap except
possibly on the edge from `pos`'s parent into `pos`, and `pos`'s former parent
value bounds `pos`'s children. -/
def SDPre (l : List HNode) (pos : Nat) (x : HNode) : Prop :=
  (∀ j, 0 < j → j < l.length → j ≠ pos →
    (lget (l.set pos x) (par j)).freq ≤ (lget (l.set pos x) j).freq) ∧
  (0 < pos → ∀ j, j < l.length → par j = pos →
    (lget (l.set pos x) (par pos)).freq ≤ (lget (l.set pos x) j).freq)

theorem siftdownLoop_isHeap : ∀ (pos : Nat) (l : List HNode) (x : HNode), pos < l.length →
    SDPre l pos x → IsHeap (siftdownLoop l 0 pos x) := by
  intro pos
  induction pos using Nat.strong_induction_on with
  | _ pos ih =>
    intro l x hpos hpre
    obtain ⟨e1, e2⟩ := hpre
    unfold siftdownLoop
    split
    · rename_i hp0
      split
      · rename_i hlt
        -- recursive case: move the parent down into pos, recurse at par pos
        have hpp : (pos - 1) / 2 = par pos := rfl
        have hparlt : par pos < pos := par_lt pos hp0
        refine ih (par pos) (by omega) _ x (by simp only [List.length_set]; omega) ?_
        rw [hpp] at hlt ⊢
        have hplen : par pos < l.length := by omega
        -- abbreviations for reading entries of the two relevant arrays
        have hA : ∀ i, i ≠ pos → lget (l.set pos x) i = lget l i := fun i hi =>
          lget_set_ne l pos i x (fun h => hi h.symm)
        have hApos : lget (l.set pos x) pos = x := lget_set_self l pos x hpos
        have hA'own : ∀ i, i ≠ pos → i ≠ par pos →
            lget ((l.set pos (lget l (par pos))).set (par pos) x) i = lget l i := by
          intro i hi1 hi2
          rw [lget_set_ne _ _ _ _ (fun h => hi2 h.symm), lget_set_ne _ _ _ _ (fun h => hi1 h.symm)]
        have hA'pos : lget ((l.set pos (lget l (par pos))).set (par pos) x) pos
            = lget l (par pos) := by
          rw [lget_set_ne _ _ _ _ (by omega), lget_set_self l pos _ hpos]
        have hA'pp : lget ((l.set pos (lget l (par pos))).set (par pos) x) (par pos) = x :=
          lget_set_self _ (par pos) x (by simp only [List.length_set]; omega)
        constructor
        · -- clause E1 for the new configuration
          intro j hj0 hjlen hjne
          simp only [List.length_set] at hjlen
          by_cases hjpos : j = pos
          · subst hjpos
            rw [hA'pp, hA'pos]
            exact le_of_lt hlt
          · by_cases hpj : par j = pos
            · -- j is a child of pos
              rw [hpj, hA'pos]
              rw [hA'own j hjpos (by have := par_child j pos hj0 hpj; omega)]
              have h2 := e2 hp0 j hjlen hpj
              rw [hA (par pos) (by omega), hA j hjpos] at h2
              exact h2
            · by_cases hpj' : par j = par pos
              · -- j is a sibling of pos (child of par pos)
                rw [hpj', hA'pp, hA'own j hjpos (by omega)]
                have h1 := e1 j hj0 hjlen hjpos
                rw [hpj', hA (par pos) (by omega), hA j hjpos] at h1
                exact le_trans (le_of_lt hlt) h1
              · rw [hA'own j hjpos (by omega), hA'own (par j) hpj hpj']
                have h1 := e1 j hj0 hjlen hjpos
                rw [hA (par j) hpj, hA j hjpos] at h1
                exact h1
        · -- clause E2 for the new configuration
          intro hpp0 j hjlen hjpar
          simp only [List.length_set] at hjlen
          have hjge : j = 2 * par pos + 1 ∨ j = 2 * par pos + 2 := by
            refine par_child j (par pos) ?_ hjpar
            by_contra hj0
            push_neg at hj0
            interval_cases j
            unfold par at hjpar
            omega
          have hppne : par (par pos) ≠ pos := by have := par_lt (par pos) hpp0; omega
          have hppne' : par (par pos) ≠ par pos := by have := par_lt (par pos) hpp0; omega
          rw [hA'own (par (par pos)) hppne hppne']
          have hbound : (lget l (par (par pos))).freq ≤ (lget l (par pos)).freq := by
            have h1 := e1 (par pos) hpp0 hplen (by omega)
            rw [hA (par (par pos)) hppne, hA (par pos) (by omega)] at h1
            exact h1
          by_cases hjpos : j = pos
          · subst hjpos
            rw [hA'pos]
            exact hbound
          · have hjnepp : j ≠ par pos := by omega
            rw [hA'own j hjpos hjnepp]
            have h1 := e1 j (by omega) hjlen hjpos
            rw [hjpar] at h1
            rw [hA (par pos) (by omega), hA j hjpos] at h1
            exact le_trans hbound h1
      · rename_i hnlt
        -- terminal case: parent is not larger, write x at pos
        have hpp : (pos - 1) / 2 = par pos := rfl
        rw [hpp] at hnlt
        intro j hj0 hjlen
        simp only [List.length_set] at hjlen
        by_cases hjpos : j = pos
        · subst hjpos
          rw [lget_set_self l j x hpos,
            lget_set_ne l j (par j) x (by have := par_lt j hj0; omega)]
          omega
        · exact e1 j hj0 hjlen hjpos
    · rename_i hp0
      -- pos = 0: no parent edge to check
      have : pos = 0 := by omega
      subst this
      intro j hj0 hjlen
      simp only [List.length_set] at hjlen
      exact e1 j hj0 hjlen (by omega)

theorem heappush_isHeap (l : List HNode) (x : HNode) (h : IsHeap l) :
    IsHeap (heappush l x) := by
  unfold heappush siftdown
  have hlen : (l ++ [x]).length - 1 = l.length := by simp
  rw [hlen, lget_append_last]
  refine siftdownLoop_isHeap l.length (l ++ [x]) x (by simp) ?_
  have hset : (l ++ [x]).set l.length x = l ++ [x] := by
    have := set_lget_self (l ++ [x]) l.length (by simp)
    rwa [lget_append_last] at this
  constructor
  · intro j hj0 hjlen hjne
    rw [hset]
    simp only [List.length_append, List.length_singleton] at hjlen
    have hjl : j < l.length := by omega
    have hpjl : par j < l.length := by have := par_lt j hj0; omega
    rw [lget_append_left l [x] j hjl, lget_append_left l [x] (par j) hpjl]
    exact h j hj0 hjl
  · intro h0 j hjlen hjpar
    simp only [List.length_append, List.length_singleton] at hjlen
    have := par_child j l.length (by unfold par at hjpar; omega) hjpar
    omega

/-- Invariant of the `_siftup` loop: the array is a heap except at the hole
`pos` (whose content is stale), and the hole's parent value bounds the hole's
children. -/
def HoleHeap (l : List HNode) (pos : Nat) : Prop :=
  (∀ j, 0 < j → j < l.length → j ≠ pos → par j ≠ pos →
    (lget l (par j)).freq ≤ (lget l j).freq) ∧
  (0 < pos → ∀ j, j < l.length → par j = pos →
    (lget l (par pos)).freq ≤ (lget l j).freq)

theorem siftupLoop_leaf : ∀ (n e p : Nat), e - p = n → ∀ (l : List HNode),
    e ≤ 2 * (siftupLoop l p e).2 + 1 := by
  intro n
  induction n using Nat.strong_induction_on with
  | _ n ih =>
    intro e p hn l
    unfold siftupLoop
    split
    · exact ih (e - childSel l p e) (by have := childSel_gt l p e; omega) e _ rfl _
    · omega

theorem childSel_mem (l : List HNode) (p e : Nat) :
    childSel l p e = 2 * p + 1 ∨ childSel l p e = 2 * p + 2 := by
  unfold childSel; split
  · right; rfl
  · left; rfl

theorem par_childSel (l : List HNode) (p e : Nat) : par (childSel l p e) = p := by
  rcases childSel_mem l p e with h | h <;> rw [h]
  · exact par_two_one p
  · exact par_two_two p

theorem childSel_min (l : List HNode) (p e : Nat) (h : 2 * p + 1 < e) :
    ∀ s, par s = p → 0 < s → s < e →
    (lget l (childSel l p e)).freq ≤ (lget l s).freq := by
  intro s hsp hs0 hse
  rcases par_child s p hs0 hsp with hs | hs <;> subst hs <;> unfold childSel
  · split
    · rename_i hc
      omega
    · exact le_refl _
  · split
    · exact le_refl _
    · rename_i hc
      push_neg at hc
      exact le_of_lt (hc hse)

theorem siftupLoop_hole : ∀ (n e p : Nat), e - p = n → ∀ (l : List HNode),
    e = l.length → p < e → HoleHeap l p →
    HoleHeap (siftupLoop l p e).1 (siftupLoop l p e).2 := by
  intro n
  induction n using Nat.strong_induction_on with
  | _ n ih =>
    intro e p hn l he hpe hh
    unfold siftupLoop
    split
    · rename_i h
      obtain ⟨c1, c2⟩ := hh
      have hcpgt := childSel_gt l p e
      have hcplt := childSel_lt l p e h
      have hpar := par_childSel l p e
      have hplen : p < l.length := by omega
      have hL : ∀ i, i ≠ p → lget (l.set p (lget l (childSel l p e))) i = lget l i :=
        fun i hi => lget_set_ne l p i _ (fun hx => hi hx.symm)
      have hLp : lget (l.set p (lget l (childSel l p e))) p = lget l (childSel l p e) :=
        lget_set_self l p _ hplen
      refine ih (e - childSel l p e) (by omega) e _ rfl _ (by simpa using he)
        hcplt ?_
      constructor
      · intro j hj0 hjlen hjcp hjparcp
        simp only [List.length_set] at hjlen
        by_cases hjp : j = p
        · subst hjp
          have hpj0 : 0 < j := hj0
          have hparj : par j < j := par_lt j hj0
          rw [hL (par j) (by omega), hLp]
          exact c2 hj0 (childSel l j e) (by omega) hpar
        · by_cases hjpar : par j = p
          · rw [hjpar, hLp, hL j hjp]
            exact childSel_min l p e h j hjpar hj0 (by omega)
          · rw [hL j hjp, hL (par j) hjpar]
            exact c1 j hj0 hjlen hjp hjpar
      · intro hcp0 j hjlen hjpar
        simp only [List.length_set] at hjlen
        have hj0 : 0 < j := by
          rcases Nat.eq_zero_or_pos j with hj | hj
          · subst hj
            have : par 0 = 0 := rfl
            omega
          · exact hj
        have hjchild := par_child j (childSel l p e) hj0 hjpar
        rw [hpar, hLp, hL j (by omega)]
        have h1 := c1 j hj0 hjlen (by omega) (by rw [hjpar]; omega)
        rw [hjpar] at h1
        exact h1
    · exact hh

theorem siftup_isHeap (l : List HNode) (h0 : 0 < l.length) (hh : HoleHeap l 0) :
    IsHeap (siftup l 0) := by
  show IsHeap (siftdownLoop ((siftupLoop l 0 l.length).1.set (siftupLoop l 0 l.length).2
    (lget l 0)) 0 (siftupLoop l 0 l.length).2 (lget l 0))
  have hfp : (siftupLoop l 0 l.length).2 < l.length :=
    siftupLoop_pos_lt (l.length - 0) l.length 0 rfl h0 l
  have hleaf : l.length ≤ 2 * (siftupLoop l 0 l.length).2 + 1 :=
    siftupLoop_leaf (l.length - 0) l.length 0 rfl l
  have hlen1 : (siftupLoop l 0 l.length).1.length = l.length :=
    siftupLoop_length (l.length - 0) l.length 0 rfl l
  have hhole : HoleHeap (siftupLoop l 0 l.length).1 (siftupLoop l 0 l.length).2 :=
    siftupLoop_hole (l.length - 0) l.length 0 rfl l rfl h0 hh
  obtain ⟨c1, c2⟩ := hhole
  refine siftdownLoop_isHeap _ _ _ (by simp only [List.length_set]; omega) ?_
  unfold SDPre
  rw [List.set_set]
  constructor
  · intro j hj0 hjlen hjne
    simp only [List.length_set] at hjlen
    have hparne : par j ≠ (siftupLoop l 0 l.length).2 := by
      intro hx
      have := par_child j _ hj0 hx
      omega
    rw [lget_set_ne _ _ _ _ (fun hx => hjne hx.symm),
      lget_set_ne _ _ _ _ (fun hx => hparne hx.symm)]
    exact c1 j hj0 (by omega) hjne hparne
  · intro hfp0 j hjlen hjpar
    simp only [List.length_set] at hjlen
    have hj0 : 0 < j := by
      rcases Nat.eq_zero_or_pos j with hj | hj
      · subst hj
        have : par 0 = 0 := rfl
        omega
      · exact hj
    have := par_child j _ hj0 hjpar
    omega

theorem lget_mem (l : List HNode) (j : Nat) (h : j < l.length) : lget l j ∈ l := by
  induction l generalizing j with
  | nil => simp at h
  | cons a t ih =>
    cases j with
    | zero => exact List.mem_cons_self a t
    | succ k => exact List.mem_cons_of_mem a (ih k (by simpa using h))

theorem mem_lget (l : List HNode) (m : HNode) (h : m ∈ l) :
    ∃ j, j < l.length ∧ lget l j = m := by
  induction l with
  | nil => simp at h
  | cons a t ih =>
    rcases List.mem_cons.mp h with h1 | h1
    · exact ⟨0, by simp, h1.symm⟩
    · obtain ⟨j, hj, hl⟩ := ih h1
      exact ⟨j + 1, by simpa using hj, hl⟩

theorem isHeap_root_min (l : List HNode) (hh : IsHeap l) :
    ∀ j, j < l.length → (lget l 0).freq ≤ (lget l j).freq := by
  intro j
  induction j using Nat.strong_induction_on with
  | _ j ih =>
    intro hjlen
    rcases Nat.eq_zero_or_pos j with hj | hj
    · subst hj; exact le_refl _
    · have hp := par_lt j hj
      exact le_trans (ih (par j) hp (by omega)) (hh j hj hjlen)

theorem dropLast_lget : ∀ (l : List HNode) (i : Nat), i < l.length - 1 →
    lget l.dropLast i = lget l i := by
  intro l
  induction l with
  | nil => intro i h; simp at h
  | cons a t ih =>
    intro i h
    cases t with
    | nil => simp at h
    | cons b t' =>
      cases i with
      | zero => rfl
      | succ k =>
        show lget ((b :: t').dropLast) k = lget (b :: t') k
        exact ih k (by simp at h ⊢; omega)

theorem heappop_isHeap (l : List HNode) (n : HNode) (h' : List HNode)
    (hh : IsHeap l) (h : heappop l = some (n, h')) : IsHeap h' := by
  match l with
  | [] => simp [heappop_nil] at h
  | [a] =>
    rw [heappop_single] at h
    injection h with h
    injection h with h1 h2
    subst h2
    intro j hj0 hjlen
    simp at hjlen
  | a :: b :: t =>
    rw [heappop_cons_cons] at h
    injection h with h
    injection h with h1 h2
    subst h2
    refine siftup_isHeap _ (by simp) ?_
    constructor
    · intro j hj0 hjlen hjne hparne
      simp only [List.length_set] at hjlen
      have hlen : (a :: (b :: t).dropLast).length = t.length + 2 - 1 := by simp
      have hjl : j < (a :: b :: t).length - 1 := by
        simp only [List.length_cons]
        omega
      rw [lget_set_ne _ _ _ _ (fun hx => hjne hx.symm),
        lget_set_ne _ _ _ _ (fun hx => hparne hx.symm)]
      have hd : (a :: (b :: t).dropLast) = (a :: b :: t).dropLast := rfl
      rw [hd, dropLast_lget _ _ hjl,
        dropLast_lget _ _ (by have := par_lt j hj0; simp only [List.length_cons]; omega)]
      exact hh j hj0 (by simp only [List.length_cons]; omega)
    · intro h0; omega

theorem heappop_min (l : List HNode) (n : HNode) (h' : List HNode)
    (hh : IsHeap l) (h : heappop l = some (n, h')) :
    ∀ m, m ∈ h' → n.freq ≤ m.freq := by
  match l with
  | [] => simp [heappop_nil] at h
  | [a] =>
    rw [heappop_single] at h
    injection h with h
    injection h with h1 h2
    subst h2
    intro m hm
    simp at hm
  | a :: b :: t =>
    have hn : n = lget (a :: b :: t) 0 := by
      rw [heappop_cons_cons] at h
      injection h with h
      injection h with h1 h2
      exact h1.symm
    intro m hm
    have hmem : m ∈ (a :: b :: t) := by
      have hperm := heappop_perm _ _ _ h
      exact hperm.mem_iff.mpr (List.mem_cons_of_mem n hm)
    obtain ⟨j, hj, hl⟩ := mem_lget _ m hmem
    rw [hn, ← hl]
    exact isHeap_root_min _ hh j hj

theorem heappush_nil (x : HNode) : heappush [] x = [x] := by
  unfold heappush siftdown
  unfold siftdownLoop
  simp [lget]

/-- `HuffmanCoding.make_heap`: push one leaf node per (symbol, frequency) pair,
in dictionary iteration order. -/
def makeHeap (frequency : List (Char × Nat)) : List HNode :=
  frequency.foldl (fun heap p => heappush heap (HNode.leaf p.1 p.2)) []

theorem makeHeap_foldl_perm : ∀ (freq : List (Char × Nat)) (h0 : List HNode),
    List.Perm (freq.foldl (fun heap p => heappush heap (HNode.leaf p.1 p.2)) h0)
      (h0 ++ freq.map fun p => HNode.leaf p.1 p.2) := by
  intro freq
  induction freq with
  | nil => intro h0; simp
  | cons p ps ih =>
    intro h0
    simp only [List.foldl_cons, List.map_cons]
    refine List.Perm.trans (ih (heappush h0 (HNode.leaf p.1 p.2))) ?_
    refine List.Perm.trans (((heappush_perm h0 (HNode.leaf p.1 p.2))).append_right _) ?_
    simp only [List.cons_append]
    exact (List.perm_middle).symm

theorem makeHeap_perm (freq : List (Char × Nat)) :
    List.Perm (makeHeap freq) (freq.map fun p => HNode.leaf p.1 p.2) := by
  have := makeHeap_foldl_perm freq []
  simpa [makeHeap] using this

theorem isHeap_nil : IsHeap [] := by
  intro j hj0 hjlen
  simp at hjlen

theorem makeHeap_isHeap (freq : List (Char × Nat)) : IsHeap (makeHeap freq) := by
  unfold makeHeap
  suffices h : ∀ (fs : List (Char × Nat)) (h0 : List HNode), IsHeap h0 →
      IsHeap (fs.foldl (fun heap p => heappush heap (HNode.leaf p.1 p.2)) h0) by
    exact h freq [] isHeap_nil
  intro fs
  induction fs with
  | nil => intro h0 hh; exact hh
  | cons p ps ih =>
    intro h0 hh
    exact ih _ (heappush_isHeap h0 _ hh)

theorem makeHeap_length (freq : List (Char × Nat)) :
    (makeHeap freq).length = freq.length := by
  have := (makeHeap_perm freq).length_eq
  simpa using this

theorem heappop_of_ne_nil (l : List HNode) (hl : l ≠ []) (h : heappop l = none) : False := by
  have := heappop_isSome l hl
  rw [h] at this
  simp at this

theorem heappop_top_ne_none (l : List HNode) (h0 : 0 < l.length) (h1 : heappop l = none) :
    False := by
  refine heappop_of_ne_nil l ?_ h1
  intro hnil
  subst hnil
  simp at h0

theorem heappop_sub_ne_none (l : List HNode) (node1 : HNode) (heap1 : List HNode)
    (hlen : 1 < l.length) (h1 : heappop l = some (node1, heap1))
    (h2 : heappop heap1 = none) : False := by
  have e1 := heappop_length _ _ _ h1
  refine heappop_of_ne_nil heap1 ?_ h2
  intro hnil
  subst hnil
  simp at e1
  omega

theorem mergeNodes_length : ∀ (n : Nat) (l : List HNode), l.length = n → 0 < l.length →
    (mergeNodes l).length = 1 := by
  intro n
  induction n using Nat.strong_induction_on with
  | _ n ih =>
    intro l hn h0
    unfold mergeNodes
    split
    · rename_i hlen
      split
      · rename_i node1 heap1 h1
        split
        · rename_i node2 heap2 h2
          have e1 := heappop_length _ _ _ h1
          have e2 := heappop_length _ _ _ h2
          refine ih (heappush heap2 (HNode.node (node1.freq + node2.freq) node1 node2)).length
            ?_ _ rfl ?_ <;> rw [heappush_length] <;> omega
        · rename_i h2
          have e1 := heappop_length _ _ _ h1
          exact absurd h2 (by
            intro hx
            exact heappop_of_ne_nil heap1 (by
              intro hnil
              subst hnil
              simp at e1
              omega) hx)
      · rename_i h1
        exact absurd h1 (by
          intro hx
          exact heappop_of_ne_nil l (by
            intro hnil
            subst hnil
            simp at h0) hx)
    · rename_i hlen
      omega

theorem mergeNodes_leaves : ∀ (n : Nat) (l : List HNode), l.length = n →
    List.Perm ((mergeNodes l).flatMap HNode.leaves) (l.flatMap HNode.leaves) := by
  intro n
  induction n using Nat.strong_induction_on with
  | _ n ih =>
    intro l hn
    unfold mergeNodes
    split
    · rename_i hlen
      split
      · rename_i node1 heap1 h1
        split
        · rename_i node2 heap2 h2
          have e1 := heappop_length _ _ _ h1
          have e2 := heappop_length _ _ _ h2
          have p1 := heappop_perm _ _ _ h1
          have p2 := heappop_perm _ _ _ h2
          have p3 := heappush_perm heap2 (HNode.node (node1.freq + node2.freq) node1 node2)
          refine List.Perm.trans (ih _ (by rw [heappush_length]; omega) _ rfl) ?_
          refine List.Perm.trans (p3.flatMap_right HNode.leaves) ?_
          refine List.Perm.trans ?_ (p1.flatMap_right HNode.leaves).symm
          refine List.Perm.trans ?_
            (((p2.flatMap_right HNode.leaves).symm).append_left (HNode.leaves node1))
          simp only [List.flatMap_cons, HNode.leaves, List.append_assoc]
          exact List.Perm.refl _
        · rename_i h2
          exact (heappop_sub_ne_none l _ _ (by omega) h1 h2).elim
      · rename_i h1
        exact (heappop_top_ne_none l (by omega) h1).elim
    · exact List.Perm.refl _

theorem mergeNodes_weight : ∀ (n : Nat) (l : List HNode), l.length = n →
    ((mergeNodes l).map HNode.freq).sum = (l.map HNode.freq).sum := by
  intro n
  induction n using Nat.strong_induction_on with
  | _ n ih =>
    intro l hn
    unfold mergeNodes
    split
    · rename_i hlen
      split
      · rename_i node1 heap1 h1
        split
        · rename_i node2 heap2 h2
          have e1 := heappop_length _ _ _ h1
          have e2 := heappop_length _ _ _ h2
          have p1 := (heappop_perm _ _ _ h1).map HNode.freq
          have p2 := (heappop_perm _ _ _ h2).map HNode.freq
          have p3 := (heappush_perm heap2
            (HNode.node (node1.freq + node2.freq) node1 node2)).map HNode.freq
          have s1 : (List.map HNode.freq l).sum
              = node1.freq + (List.map HNode.freq heap1).sum := by
            rw [p1.sum_eq]; simp
          have s2 : (List.map HNode.freq heap1).sum
              = node2.freq + (List.map HNode.freq heap2).sum := by
            rw [p2.sum_eq]; simp
          rw [ih _ (by rw [heappush_length]; omega) _ rfl, p3.sum_eq]
          simp only [List.map_cons, List.sum_cons]
          have hm : HNode.freq (HNode.node (node1.freq + node2.freq) node1 node2)
              = node1.freq + node2.freq := rfl
          rw [hm]
          omega
        · rename_i h2
          exact (heappop_sub_ne_none l _ _ (by omega) h1 h2).elim
      · rename_i h1
        exact (heappop_top_ne_none l (by omega) h1).elim
    · rfl

theorem mergeNodes_isNode : ∀ (n : Nat) (l : List HNode), l.length = n → 1 < l.length →
    ∃ f a b, mergeNodes l = [HNode.node f a b] := by
  intro n
  induction n using Nat.strong_induction_on with
  | _ n ih =>
    intro l hn h1l
    unfold mergeNodes
    split
    · rename_i hlen
      split
      · rename_i node1 heap1 h1
        split
        · rename_i node2 heap2 h2
          have e1 := heappop_length _ _ _ h1
          have e2 := heappop_length _ _ _ h2
          by_cases h2l : l.length = 2
          · have hh2 : heap2 = [] := by
              have : heap2.length = 0 := by omega
              exact List.length_eq_zero.mp this
            subst hh2
            rw [heappush_nil]
            refine ⟨node1.freq + node2.freq, node1, node2, ?_⟩
            unfold mergeNodes
            simp
          · refine ih (heappush heap2 (HNode.node (node1.freq + node2.freq) node1 node2)).length
              ?_ _ rfl ?_ <;> rw [heappush_length] <;> omega
        · rename_i h2
          exact absurd h2 (by
            intro hx
            have e1 := heappop_length _ _ _ h1
            exact heappop_of_ne_nil heap1 (by
              intro hnil
              subst hnil
              simp at e1
              omega) hx)
      · rename_i h1
        exact absurd h1 (by
          intro hx
          exact heappop_of_ne_nil l (by
            intro hnil
            subst hnil
            simp at h1l) hx)
    · rename_i hlen
      omega

/-- `HuffmanCoding.make_codes_helper`: depth-first walk accumulating `"0"` on the
left and `"1"` on the right; a node with `char` set (a leaf) contributes the
accumulated code.  The resulting association list records the `codes` /
`reverse_mapping` dictionary assignments in execution order. -/
def makeCodesHelper : HNode → List Char → List (Char × List Char)
  | .leaf c _, currentCode => [(c, currentCode)]
  | .node _ l r, currentCode =>
    makeCodesHelper l (currentCode ++ ['0']) ++ makeCodesHelper r (currentCode ++ ['1'])

/-- `HuffmanCoding.make_codes`: pop the root off the heap and walk it starting
from the empty code string.  `none` models the `IndexError` of popping an empty heap. -/
def makeCodes (heap : List HNode) : Option (List (Char × List Char)) :=
  match heappop heap with
  | none => none
  | some (root, _) => some (makeCodesHelper root [])

/-- `pfx a b` holds when the string `a` is a (not necessarily proper) prefix of `b`. -/
def pfx : List Char → List Char → Bool
  | [], _ => true
  | _ :: _, [] => false
  | a :: as, b :: bs => a == b && pfx as bs

theorem pfx_refl : ∀ (w : List Char), pfx w w = true := by
  intro w
  induction w with
  | nil => rfl
  | cons a as ih => simp [pfx, ih]

theorem pfx_take : ∀ (w : List Char) (i : Nat), pfx (w.take i) w = true := by
  intro w
  induction w with
  | nil => intro i; cases i <;> rfl
  | cons a as ih =>
    intro i
    cases i with
    | zero => rfl
    | succ k => simp [pfx, ih k]

theorem pfx_append_same : ∀ (p a b : List Char), pfx (p ++ a) (p ++ b) = pfx a b := by
  intro p
  induction p with
  | nil => intro a b; rfl
  | cons c cs ih => intro a b; simp [pfx, ih]

theorem pfx_cons_ne (c d : Char) (s u : List Char) (h : c ≠ d) :
    pfx (c :: s) (d :: u) = false := by
  simp [pfx, h]

theorem pfx_length_le : ∀ (a b : List Char), pfx a b = true → a.length ≤ b.length := by
  intro a
  induction a with
  | nil => intro b _; simp
  | cons x as ih =>
    intro b h
    cases b with
    | nil => simp [pfx] at h
    | cons y bs =>
      simp only [pfx, Bool.and_eq_true, beq_iff_eq] at h
      simpa using ih bs h.2

theorem pfx_antisymm : ∀ (a b : List Char), pfx a b = true → a.length = b.length → a = b := by
  intro a
  induction a with
  | nil => intro b _ h; cases b with | nil => rfl | cons _ _ => simp at h
  | cons x as ih =>
    intro b h hl
    cases b with
    | nil => simp [pfx] at h
    | cons y bs =>
      simp only [pfx, Bool.and_eq_true, beq_iff_eq] at h
      simp only [List.length_cons, Nat.succ_inj] at hl
      rw [h.1, ih bs h.2 hl]

theorem mch_chars : ∀ (t : HNode) (pre : List Char),
    (makeCodesHelper t pre).map Prod.fst = t.leafChars := by
  intro t
  induction t with
  | leaf c f => intro pre; rfl
  | node f l r ihl ihr =>
    intro pre
    simp [makeCodesHelper, HNode.leafChars, ihl, ihr]

theorem mch_extends : ∀ (t : HNode) (pre : List Char) (p : Char × List Char),
    p ∈ makeCodesHelper t pre → ∃ s, p.2 = pre ++ s := by
  intro t
  induction t with
  | leaf c f =>
    intro pre p hp
    simp only [makeCodesHelper, List.mem_singleton] at hp
    exact ⟨[], by simp [hp]⟩
  | node f l r ihl ihr =>
    intro pre p hp
    simp only [makeCodesHelper, List.mem_append] at hp
    rcases hp with hp | hp
    · obtain ⟨s, hs⟩ := ihl _ p hp
      exact ⟨'0' :: s, by simpa using hs⟩
    · obtain ⟨s, hs⟩ := ihr _ p hp
      exact ⟨'1' :: s, by simpa using hs⟩

theorem mch_node_nonempty (f : Nat) (a b : HNode) (pre : List Char) (p : Char × List Char)
    (hp : p ∈ makeCodesHelper (.node f a b) pre) : ∃ c s, p.2 = pre ++ c :: s := by
  simp only [makeCodesHelper, List.mem_append] at hp
  rcases hp with hp | hp
  · obtain ⟨s, hs⟩ := mch_extends _ _ p hp
    exact ⟨'0', s, by simpa using hs⟩
  · obtain ⟨s, hs⟩ := mch_extends _ _ p hp
    exact ⟨'1', s, by simpa using hs⟩

theorem mch_digits : ∀ (t : HNode) (pre : List Char) (p : Char × List Char),
    p ∈ makeCodesHelper t pre → ∀ ch ∈ p.2, ch ∈ pre ∨ ch = '0' ∨ ch = '1' := by
  intro t
  induction t with
  | leaf c f =>
    intro pre p hp ch hch
    simp only [makeCodesHelper, List.mem_singleton] at hp
    subst hp
    exact Or.inl hch
  | node f l r ihl ihr =>
    intro pre p hp ch hch
    simp only [makeCodesHelper, List.mem_append] at hp
    rcases hp with hp | hp
    · rcases ihl _ p hp ch hch with h | h
      · simp only [List.mem_append, List.mem_singleton] at h
        rcases h with h | h
        · exact Or.inl h
        · exact Or.inr (Or.inl h)
      · exact Or.inr h
    · rcases ihr _ p hp ch hch with h | h
      · simp only [List.mem_append, List.mem_singleton] at h
        rcases h with h | h
        · exact Or.inl h
        · exact Or.inr (Or.inr h)
      · exact Or.inr h

/-- No code emitted by the tree walk is a prefix of another emitted code
(distinct list positions): leaf codes sit at incomparable tree positions. -/
theorem mch_pairwise : ∀ (t : HNode) (pre : List Char),
    List.Pairwise (fun p q : Char × List Char =>
      pfx p.2 q.2 = false ∧ pfx q.2 p.2 = false) (makeCodesHelper t pre) := by
  intro t
  induction t with
  | leaf c f => intro pre; simp [makeCodesHelper]
  | node f l r ihl ihr =>
    intro pre
    simp only [makeCodesHelper]
    rw [List.pairwise_append]
    refine ⟨ihl _, ihr _, ?_⟩
    intro p hp q hq
    obtain ⟨s, hs⟩ := mch_extends _ _ p hp
    obtain ⟨u, hu⟩ := mch_extends _ _ q hq
    rw [hs, hu]
    simp only [List.append_assoc, List.singleton_append]
    constructor
    · rw [pfx_append_same]
      exact pfx_cons_ne _ _ _ _ (by decide)
    · rw [pfx_append_same]
      exact pfx_cons_ne _ _ _ _ (by decide)

/-- Lookup in an association-list model of a Python dict. -/
def dLookup {κ β : Type} [DecidableEq κ] : List (κ × β) → κ → Option β
  | [], _ => none
  | p :: d, key => if p.1 = key then some p.2 else dLookup d key

/-- `d[key] = val` on a Python dict: overwrite in place if the key is present
(keeping its position), else append. -/
def dUpdate {κ β : Type} [DecidableEq κ] (d : List (κ × β)) (key : κ) (val : β) :
    List (κ × β) :=
  if (dLookup d key).isSome then d.map (fun p => if p.1 = key then (key, val) else p)
  else d ++ [(key, val)]

/-- A sequence of dict assignments `d[k] = v`, in order. -/
def foldUpd {κ β : Type} [DecidableEq κ] (d : List (κ × β)) (es : List (κ × β)) :
    List (κ × β) :=
  es.foldl (fun acc p => dUpdate acc p.1 p.2) d

theorem dLookup_map_upd {κ β : Type} [DecidableEq κ] (k k' : κ) (v : β) :
    ∀ (d : List (κ × β)),
    dLookup (d.map fun p => if p.1 = k then (k, v) else p) k'
      = if k' = k then ((dLookup d k).map fun _ => v) else dLookup d k' := by
  intro d
  induction d with
  | nil => by_cases h : k' = k <;> simp [dLookup, h]
  | cons p d ih =>
    by_cases hp : p.1 = k <;> by_cases h : k' = k
    · subst h; simp [dLookup, hp]
    · have h' : ¬ k = k' := fun hx => h hx.symm
      simp [dLookup, hp, h, h', ih]
    · subst h; simp [dLookup, hp, ih]
    · simp [dLookup, hp, h, ih]

theorem dLookup_append_single {κ β : Type} [DecidableEq κ] (k k' : κ) (v : β) :
    ∀ (d : List (κ × β)),
    dLookup (d ++ [(k, v)]) k'
      = if (dLookup d k').isSome then dLookup d k' else if k = k' then some v else none := by
  intro d
  induction d with
  | nil => simp [dLookup]
  | cons p d ih =>
    by_cases hp : p.1 = k'
    · simp [dLookup, hp]
    · simp only [List.cons_append, dLookup, if_neg hp]
      exact ih

/-- The fundamental dict law: after `d[k] = v`, looking up `k` gives `v` and
other keys are unchanged. -/
theorem dLookup_dUpdate {κ β : Type} [DecidableEq κ] (d : List (κ × β)) (k : κ) (v : β)
    (k' : κ) : dLookup (dUpdate d k v) k' = if k' = k then some v else dLookup d k' := by
  unfold dUpdate
  split
  · rename_i hs
    rw [dLookup_map_upd]
    by_cases h : k' = k
    · subst h
      rw [if_pos rfl, if_pos rfl]
      obtain ⟨w, hw⟩ := Option.isSome_iff_exists.mp hs
      rw [hw]
      rfl
    · rw [if_neg h, if_neg h]
  · rename_i hs
    rw [dLookup_append_single]
    by_cases h : k' = k
    · subst h
      rw [if_pos rfl, if_neg (by simpa using hs), if_pos rfl]
    · by_cases h2 : (dLookup d k').isSome
      · rw [if_pos h2, if_neg h]
      · rw [if_neg h2, if_neg (fun hx => h hx.symm), if_neg h]
        simp only [Option.isSome_iff_exists, not_exists] at h2
        cases hl : dLookup d k' with
        | none => rfl
        | some w => exact absurd hl (h2 w)

theorem dLookup_foldUpd_not_mem {κ β : Type} [DecidableEq κ] :
    ∀ (es : List (κ × β)) (d : List (κ × β)) (k : κ), k ∉ es.map Prod.fst →
    dLookup (foldUpd d es) k = dLookup d k := by
  intro es
  induction es with
  | nil => intro d k _; rfl
  | cons p es ih =>
    intro d k hk
    simp only [List.map_cons, List.mem_cons, not_or] at hk
    show dLookup (foldUpd (dUpdate d p.1 p.2) es) k = dLookup d k
    rw [ih _ k hk.2, dLookup_dUpdate, if_neg hk.1]

theorem dLookup_foldUpd_mem {κ β : Type} [DecidableEq κ] :
    ∀ (es : List (κ × β)) (d : List (κ × β)) (k : κ) (v : β),
    (es.map Prod.fst).Nodup → (k, v) ∈ es → dLookup (foldUpd d es) k = some v := by
  intro es
  induction es with
  | nil => intro d k v _ h; simp at h
  | cons p es ih =>
    intro d k v hnd hm
    simp only [List.map_cons, List.nodup_cons] at hnd
    rcases List.mem_cons.mp hm with h | h
    · subst h
      show dLookup (foldUpd (dUpdate d k v) es) k = some v
      rw [dLookup_foldUpd_not_mem es _ k hnd.1, dLookup_dUpdate, if_pos rfl]
    · exact ih _ k v hnd.2 h

theorem dLookup_eq_none {κ β : Type} [DecidableEq κ] :
    ∀ (d : List (κ × β)) (k : κ), dLookup d k = none ↔ k ∉ d.map Prod.fst := by
  intro d
  induction d with
  | nil => intro k; simp [dLookup]
  | cons p d ih =>
    intro k
    by_cases hp : p.1 = k
    · simp [dLookup, hp]
    · simp only [dLookup, if_neg hp, List.map_cons, List.mem_cons]
      rw [ih k]
      constructor
      · intro h hx
        rcases hx with hx | hx
        · exact hp hx.symm
        · exact h hx
      · intro h hx
        exact h (Or.inr hx)

theorem mem_of_dLookup {κ β : Type} [DecidableEq κ] :
    ∀ (d : List (κ × β)) (k : κ) (v : β), dLookup d k = some v → (k, v) ∈ d := by
  intro d
  induction d with
  | nil => intro k v h; simp [dLookup] at h
  | cons p d ih =>
    intro k v h
    obtain ⟨pk, pv⟩ := p
    by_cases hp : pk = k
    · rw [show dLookup ((pk, pv) :: d) k = if pk = k then some pv else dLookup d k from rfl,
        if_pos hp] at h
      injection h with h
      subst hp
      subst h
      exact List.mem_cons_self _ _
    · rw [show dLookup ((pk, pv) :: d) k = if pk = k then some pv else dLookup d k from rfl,
        if_neg hp] at h
      exact List.mem_cons_of_mem _ (ih k v h)

theorem dUpdate_fresh {κ β : Type} [DecidableEq κ] (d : List (κ × β)) (k : κ) (v : β)
    (h : k ∉ d.map Prod.fst) : dUpdate d k v = d ++ [(k, v)] := by
  unfold dUpdate
  rw [if_neg (by rw [(dLookup_eq_none d k).mpr h]; simp)]

/-- Inserting entries with fresh, pairwise-distinct keys into a dict just appends
them: the `codes` / `reverse_mapping` dicts equal the walk's assignment list. -/
theorem foldUpd_fresh {κ β : Type} [DecidableEq κ] :
    ∀ (es : List (κ × β)) (d : List (κ × β)), (es.map Prod.fst).Nodup →
    (∀ k, k ∈ es.map Prod.fst → k ∉ d.map Prod.fst) → foldUpd d es = d ++ es := by
  intro es
  induction es with
  | nil => intro d _ _; simp [foldUpd]
  | cons p es ih =>
    intro d hnd hdisj
    simp only [List.map_cons, List.nodup_cons] at hnd
    show foldUpd (dUpdate d p.1 p.2) es = d ++ p :: es
    rw [dUpdate_fresh d p.1 p.2 (hdisj p.1 (by simp))]
    rw [ih (d ++ [(p.1, p.2)]) hnd.2 ?_]
    · simp
    · intro k hk
      simp only [List.map_append, List.mem_append, List.map_cons, List.map_nil,
        List.mem_singleton, not_or]
      refine ⟨hdisj k (by simp [hk]), ?_⟩
      intro hx
      rw [hx] at hk
      exact hnd.1 hk

/-- `HuffmanCoding.make_frequency_dict`, i.e. `collections.Counter(text)`:
a dict from character to count, keyed in order of first occurrence. -/
def makeFrequencyDict (text : List Char) : List (Char × Nat) :=
  text.foldl (fun d c => dUpdate d c ((dLookup d c).getD 0 + 1)) []

theorem dUpdate_keys {κ β : Type} [DecidableEq κ] (d : List (κ × β)) (k : κ) (v : β) :
    (dUpdate d k v).map Prod.fst
      = if k ∈ d.map Prod.fst then d.map Prod.fst else d.map Prod.fst ++ [k] := by
  unfold dUpdate
  split
  · rename_i hs
    rw [if_pos ?_]
    · rw [List.map_map]
      refine List.map_congr_left ?_
      intro p hp
      by_cases hx : p.1 = k
      · simp [hx]
      · simp [hx]
    · rcases Option.isSome_iff_exists.mp hs with ⟨w, hw⟩
      have := mem_of_dLookup d k w hw
      exact List.mem_map_of_mem Prod.fst this
  · rename_i hs
    have hnone : dLookup d k = none := by
      cases hl : dLookup d k with
      | none => rfl
      | some w => rw [hl] at hs; simp at hs
    rw [if_neg ((dLookup_eq_none d k).mp hnone)]
    simp

theorem makeFrequencyDict_keys_nodup (text : List Char) :
    ((makeFrequencyDict text).map Prod.fst).Nodup := by
  unfold makeFrequencyDict
  suffices hgen : ∀ (ts : List Char) (d : List (Char × Nat)), (d.map Prod.fst).Nodup →
      ((ts.foldl (fun d c => dUpdate d c ((dLookup d c).getD 0 + 1)) d).map Prod.fst).Nodup by
    exact hgen text [] (by simp)
  intro ts
  induction ts with
  | nil => intro d hd; exact hd
  | cons c ts ih =>
    intro d hd
    simp only [List.foldl_cons]
    refine ih _ ?_
    rw [dUpdate_keys]
    split
    · exact hd
    · rename_i hmem
      simp [List.nodup_append, hd, hmem]

theorem makeFrequencyDict_keys_mem (text : List Char) (x : Char) :
    x ∈ (makeFrequencyDict text).map Prod.fst ↔ x ∈ text := by
  unfold makeFrequencyDict
  suffices hgen : ∀ (ts : List Char) (d : List (Char × Nat)),
      x ∈ ((ts.foldl (fun d c => dUpdate d c ((dLookup d c).getD 0 + 1)) d).map Prod.fst)
        ↔ x ∈ d.map Prod.fst ∨ x ∈ ts by
    rw [hgen text []]
    simp
  intro ts
  induction ts with
  | nil => intro d; simp
  | cons c ts ih =>
    intro d
    simp only [List.foldl_cons, List.mem_cons]
    rw [ih]
    rw [dUpdate_keys]
    split
    · rename_i hmem
      constructor
      · rintro (h | h)
        · exact Or.inl h
        · exact Or.inr (Or.inr h)
      · rintro (h | h | h)
        · exact Or.inl h
        · rw [h]; exact Or.inl hmem
        · exact Or.inr h
    · rename_i hmem
      simp only [List.mem_append, List.mem_singleton]
      constructor
      · rintro ((h | h) | h)
        · exact Or.inl h
        · exact Or.inr (Or.inl h)
        · exact Or.inr (Or.inr h)
      · rintro (h | h | h)
        · exact Or.inl (Or.inl h)
        · exact Or.inl (Or.inr h)
        · exact Or.inr h

/-- `bin(n)[2:]` without the leading `"0"` special case: the binary digits of a
positive `n`, empty for `0`. -/
def natToBinAux : Nat → List Char
  | 0 => []
  | n + 1 => natToBinAux ((n + 1) / 2) ++ [if (n + 1) % 2 = 1 then '1' else '0']
termination_by n => n
decreasing_by
  omega

/-- `bin(n)[2:]`: binary digits of `n`, `"0"` for zero. -/
def natToBin (n : Nat) : List Char := if n = 0 then ['0'] else natToBinAux n

/-- `int(s, 2)` for a string of binary digits. -/
def binToNat (s : List Char) : Nat :=
  s.foldl (fun a c => 2 * a + (if c = '1' then 1 else 0)) 0

/-- `s.rjust(8, '0')`, also `"{0:08b}".format(n)` applied to `bin(n)[2:]`:
left-pad with `'0'` to width (at least) 8. -/
def zfill8 (s : List Char) : List Char := List.replicate (8 - s.length) '0' ++ s

/-- `bin(byte)[2:].rjust(8, '0')` — the decompressor's byte-to-bits expansion. -/
def byteBits (b : Nat) : List Char := zfill8 (natToBin b)

/-- `HuffmanCoding.pad_encoded_text`: append `8 - len % 8` zero bits (always
1..8 of them), then prepend that count as an 8-bit header. -/
def padEncodedText (encodedText : List Char) : List Char :=
  zfill8 (natToBin (8 - encodedText.length % 8))
    ++ (encodedText ++ List.replicate (8 - encodedText.length % 8) '0')

/-- The 8-character slices `padded_encoded_text[i:i+8]`, `i = 0, 8, 16, ...`. -/
def toChunks : List Char → List (List Char)
  | [] => []
  | c :: cs => (c :: cs).take 8 :: toChunks ((c :: cs).drop 8)
termination_by l => l.length
decreasing_by
  simp only [List.length_drop]
  simp only [List.length_cons]
  omega

/-- `HuffmanCoding.get_byte_array`; `none` is the fatal
`print(...); exit(0)` branch taken when the length is not a multiple of 8. -/
def getByteArray (paddedEncodedText : List Char) : Option (List Nat) :=
  if paddedEncodedText.length % 8 ≠ 0 then none
  else some ((toChunks paddedEncodedText).map binToNat)

/-- `HuffmanCoding.remove_padding`.  `none` models `int('', 2)` raising
`ValueError` on an empty bit string.  Note Python's `s[:-p]` yields `""` both
when `p = 0` (because `-1*0 == 0`, so the slice is `s[:0]`) and when
`p ≥ len(s)`; `List.take (rest.length - p)` reproduces the second, and the
`p = 0` case is made explicit. -/
def removePadding (paddedEncodedText : List Char) : Option (List Char) :=
  if paddedEncodedText = [] then none
  -- extra_padding = int(padded_encoded_text[:8], 2); rest = padded_encoded_text[8:]
  else if binToNat (paddedEncodedText.take 8) = 0 then some []
  else some ((paddedEncodedText.drop 8).take
    ((paddedEncodedText.drop 8).length - binToNat (paddedEncodedText.take 8)))

theorem binToNat_nil : binToNat [] = 0 := rfl

theorem binToNat_foldl_shift : ∀ (b : List Char) (acc : Nat),
    b.foldl (fun a c => 2 * a + (if c = '1' then 1 else 0)) acc
      = acc * 2 ^ b.length + binToNat b := by
  intro b
  induction b with
  | nil => intro acc; simp [binToNat]
  | cons c bs ih =>
    intro acc
    show bs.foldl _ (2 * acc + (if c = '1' then 1 else 0)) = _
    rw [ih]
    have hb : binToNat (c :: bs) = (if c = '1' then 1 else 0) * 2 ^ bs.length + binToNat bs := by
      show bs.foldl _ (2 * 0 + (if c = '1' then 1 else 0)) = _
      rw [ih]
      ring_nf
    rw [hb]
    simp only [List.length_cons, pow_succ]
    ring

theorem binToNat_append (a b : List Char) :
    binToNat (a ++ b) = binToNat a * 2 ^ b.length + binToNat b := by
  show (a ++ b).foldl _ 0 = _
  rw [List.foldl_append]
  exact binToNat_foldl_shift b _

theorem binToNat_replicate_zero (n : Nat) : binToNat (List.replicate n '0') = 0 := by
  induction n with
  | zero => rfl
  | succ k ih =>
    show binToNat (List.replicate (k + 1) '0') = 0
    rw [List.replicate_succ]
    show List.foldl _ (2 * 0 + (if '0' = '1' then 1 else 0)) (List.replicate k '0') = 0
    rw [binToNat_foldl_shift]
    simpa using ih

theorem binToNat_natToBinAux : ∀ n, binToNat (natToBinAux n) = n := by
  intro n
  induction n using Nat.strong_induction_on with
  | _ n ih =>
    match n with
    | 0 => rw [show natToBinAux 0 = [] from by rw [natToBinAux]]; rfl
    | m + 1 =>
      rw [show natToBinAux (m + 1)
          = natToBinAux ((m + 1) / 2) ++ [if (m + 1) % 2 = 1 then '1' else '0'] from by
        rw [natToBinAux]]
      rw [binToNat_append, ih ((m + 1) / 2) (by omega)]
      by_cases h : (m + 1) % 2 = 1
      · rw [if_pos h]
        show (m + 1) / 2 * 2 ^ 1 + binToNat ['1'] = m + 1
        have : binToNat ['1'] = 1 := rfl
        rw [this]
        omega
      · rw [if_neg h]
        show (m + 1) / 2 * 2 ^ 1 + binToNat ['0'] = m + 1
        have : binToNat ['0'] = 0 := rfl
        rw [this]
        omega

theorem binToNat_natToBin (n : Nat) : binToNat (natToBin n) = n := by
  unfold natToBin
  split
  · rename_i h
    subst h
    rfl
  · exact binToNat_natToBinAux n

theorem binToNat_zfill8 (s : List Char) : binToNat (zfill8 s) = binToNat s := by
  unfold zfill8
  rw [binToNat_append, binToNat_replicate_zero]
  simp

theorem natToBinAux_digits : ∀ n c, c ∈ natToBinAux n → c = '0' ∨ c = '1' := by
  intro n
  induction n using Nat.strong_induction_on with
  | _ n ih =>
    match n with
    | 0 => intro c hc; simp [natToBinAux] at hc
    | m + 1 =>
      intro c hc
      rw [show natToBinAux (m + 1)
          = natToBinAux ((m + 1) / 2) ++ [if (m + 1) % 2 = 1 then '1' else '0'] from by
        rw [natToBinAux]] at hc
      rcases List.mem_append.mp hc with h | h
      · exact ih ((m + 1) / 2) (by omega) c h
      · simp only [List.mem_singleton] at h
        subst h
        by_cases h2 : (m + 1) % 2 = 1
      
        · rw [if_pos h2]; right; rfl
        · rw [if_neg h2]; left; rfl

theorem natToBin_digits (n : Nat) (c : Char) (hc : c ∈ natToBin n) : c = '0' ∨ c = '1' := by
  unfold natToBin at hc
  split at hc
  · simp only [List.mem_singleton] at hc
    exact Or.inl hc
  · exact natToBinAux_digits n c hc

theorem natToBinAux_length_le : ∀ (k n : Nat), n < 2 ^ k → (natToBinAux n).length ≤ k := by
  intro k
  induction k with
  | zero =>
    intro n h
    have : n = 0 := by simpa using h
    subst this
    simp [natToBinAux]
  | succ k ih =>
    intro n h
    match n with
    | 0 => simp [natToBinAux]
    | m + 1 =>
      rw [show natToBinAux (m + 1)
          = natToBinAux ((m + 1) / 2) ++ [if (m + 1) % 2 = 1 then '1' else '0'] from by
        rw [natToBinAux]]
      rw [pow_succ] at h
      simp only [List.length_append, List.length_singleton]
      have := ih ((m + 1) / 2) (by omega)
      omega

theorem natToBin_length_le (n : Nat) (h : n < 256) : (natToBin n).length ≤ 8 := by
  unfold natToBin
  split
  · simp
  · exact natToBinAux_length_le 8 n (by norm_num; omega)

theorem zfill8_length (s : List Char) (h : s.length ≤ 8) : (zfill8 s).length = 8 := by
  unfold zfill8
  simp only [List.length_append, List.length_replicate]
  omega

theorem natToBinAux_zero : natToBinAux 0 = [] := by rw [natToBinAux]

theorem natToBinAux_one : natToBinAux 1 = ['1'] := by
  rw [show (1 : Nat) = 0 + 1 from rfl, natToBinAux]
  norm_num
  rw [natToBinAux]

theorem binToNat_cons (c : Char) (bs : List Char) :
    binToNat (c :: bs) = (if c = '1' then 1 else 0) * 2 ^ bs.length + binToNat bs := by
  show bs.foldl _ (2 * 0 + (if c = '1' then 1 else 0)) = _
  rw [binToNat_foldl_shift]
  ring_nf

theorem binToNat_lt : ∀ (w : List Char), binToNat w < 2 ^ w.length := by
  intro w
  induction w with
  | nil => simp [binToNat]
  | cons c bs ih =>
    rw [binToNat_cons]
    simp only [List.length_cons, pow_succ]
    by_cases h : c = '1'
    · rw [if_pos h]
      omega
    · rw [if_neg h]
      omega

theorem all_zero_of_binToNat_zero : ∀ (w : List Char),
    (∀ c ∈ w, c = '0' ∨ c = '1') → binToNat w = 0 → w = List.replicate w.length '0' := by
  intro w
  induction w with
  | nil => intro _ _; rfl
  | cons c bs ih =>
    intro hd h0
    rw [binToNat_cons] at h0
    have hcz : c = '0' := by
      rcases hd c (by simp) with h | h
      · exact h
      · subst h
        rw [if_pos rfl] at h0
        have : (2 : Nat) ^ bs.length ≥ 1 := Nat.one_le_two_pow
        omega
    subst hcz
    simp only [List.length_cons, List.replicate_succ, List.cons_inj_right]
    refine ih (fun x hx => hd x (by simp [hx])) ?_
    rw [if_neg (by decide)] at h0
    omega

theorem dropWhile_append_all {p : Char → Bool} : ∀ (w r : List Char), (∀ x ∈ w, p x) →
    List.dropWhile p (w ++ r) = List.dropWhile p r := by
  intro w
  induction w with
  | nil => intro r _; rfl
  | cons c bs ih =>
    intro r hall
    simp only [List.cons_append, List.dropWhile_cons]
    rw [if_pos (hall c (by simp))]
    exact ih r (fun x hx => hall x (by simp [hx]))

theorem dropWhile_append_ne {p : Char → Bool} : ∀ (w r : List Char),
    List.dropWhile p w ≠ [] → List.dropWhile p (w ++ r) = List.dropWhile p w ++ r := by
  intro w
  induction w with
  | nil => intro r h; exact absurd rfl h
  | cons c bs ih =>
    intro r h
    by_cases hp : p c = true
    · simp only [List.cons_append, List.dropWhile_cons, hp, if_true] at h ⊢
      exact ih r h
    · simp only [Bool.not_eq_true] at hp
      simp only [List.cons_append, List.dropWhile_cons, hp, Bool.false_eq_true, if_false]

theorem natToBinAux_binToNat : ∀ (w : List Char), (∀ c ∈ w, c = '0' ∨ c = '1') →
    natToBinAux (binToNat w) = List.dropWhile (fun c => c = '0') w := by
  intro w
  induction w using List.reverseRecOn with
  | nil =>
    intro _
    rw [binToNat_nil, natToBinAux_zero]
    rfl
  | append_singleton w c ih =>
    intro hd
    have hdw : ∀ x ∈ w, x = '0' ∨ x = '1' := fun x hx => hd x (by simp [hx])
    have hdc : c = '0' ∨ c = '1' := hd c (by simp)
    by_cases hv : binToNat w = 0
    · have hall : w = List.replicate w.length '0' := all_zero_of_binToNat_zero w hdw hv
      have hallp : ∀ x ∈ w, (fun c => decide (c = '0')) x = true := by
        intro x hx
        rw [hall] at hx
        simp only [List.mem_replicate] at hx
        simp [hx.2]
      rw [dropWhile_append_all w [c] hallp, binToNat_append, hv]
      rcases hdc with hc | hc <;> subst hc
      · rw [show binToNat ['0'] = 0 from rfl]
        simp only [Nat.zero_mul, Nat.zero_add]
        rw [natToBinAux_zero]
        rfl
      · rw [show binToNat ['1'] = 1 from rfl]
        simp only [Nat.zero_mul, Nat.zero_add]
        rw [natToBinAux_one]
        rfl
    · rw [binToNat_append]
      have hne : List.dropWhile (fun c => decide (c = '0')) w ≠ [] := by
        intro hx
        have hall : ∀ x ∈ w, x = '0' := by
          intro x hxw
          have h2 := (List.dropWhile_eq_nil_iff.mp hx) x hxw
          simpa using h2
        have hrep : w = List.replicate w.length '0' := List.eq_replicate_of_mem hall
        rw [hrep, binToNat_replicate_zero] at hv
        exact hv rfl
      rw [dropWhile_append_ne w [c] hne, ← ih hdw]
      rcases hdc with hc | hc <;> subst hc
      · rw [show binToNat ['0'] = 0 from rfl]
        simp only [List.length_singleton, pow_one]
        obtain ⟨m, hm⟩ : ∃ m, binToNat w * 2 + 0 = m + 1 := ⟨binToNat w * 2 - 1, by omega⟩
        rw [hm, show natToBinAux (m + 1)
            = natToBinAux ((m + 1) / 2) ++ [if (m + 1) % 2 = 1 then '1' else '0'] from by
          rw [natToBinAux], ← hm]
        congr 1
        · congr 1
          omega
        · rw [if_neg (by omega)]
      · rw [show binToNat ['1'] = 1 from rfl]
        simp only [List.length_singleton, pow_one]
        obtain ⟨m, hm⟩ : ∃ m, binToNat w * 2 + 1 = m + 1 := ⟨binToNat w * 2, by omega⟩
        rw [hm, show natToBinAux (m + 1)
            = natToBinAux ((m + 1) / 2) ++ [if (m + 1) % 2 = 1 then '1' else '0'] from by
          rw [natToBinAux], ← hm]
        congr 1
        · congr 1
          omega
        · rw [if_pos (by omega)]

theorem byteBits_binToNat (w : List Char) (hd : ∀ c ∈ w, c = '0' ∨ c = '1')
    (hl : w.length = 8) : byteBits (binToNat w) = w := by
  unfold byteBits natToBin
  by_cases hv : binToNat w = 0
  · rw [if_pos hv]
    have hall : w = List.replicate w.length '0' := all_zero_of_binToNat_zero w hd hv
    rw [hall, hl]
    rfl
  · rw [if_neg hv]
    rw [natToBinAux_binToNat w hd]
    unfold zfill8
    have hsplit : List.takeWhile (fun c => decide (c = '0')) w
        ++ List.dropWhile (fun c => decide (c = '0')) w = w :=
      List.takeWhile_append_dropWhile _ w
    have htw : List.takeWhile (fun c => decide (c = '0')) w
        = List.replicate (List.takeWhile (fun c => decide (c = '0')) w).length '0' := by
      refine List.eq_replicate_of_mem ?_
      intro b hb
      have := List.mem_takeWhile_imp hb
      simpa using this
    have hlen : (List.takeWhile (fun c => decide (c = '0')) w).length
        + (List.dropWhile (fun c => decide (c = '0')) w).length = 8 := by
      rw [← hl, ← List.length_append, hsplit]
    rw [show 8 - (List.dropWhile (fun c => decide (c = '0')) w).length
        = (List.takeWhile (fun c => decide (c = '0')) w).length from by omega]
    rw [← htw]
    exact hsplit

theorem toChunks_flatMap : ∀ (n : Nat) (s : List Char), s.length = n → s.length % 8 = 0 →
    (∀ c ∈ s, c = '0' ∨ c = '1') →
    ((toChunks s).map binToNat).flatMap byteBits = s := by
  intro n
  induction n using Nat.strong_induction_on with
  | _ n ih =>
    intro s hn hmod hdig
    match s with
    | [] => rw [show toChunks [] = [] from by rw [toChunks]]; rfl
    | c :: cs =>
      have hlen8 : 8 ≤ (c :: cs).length := by
        simp only [List.length_cons] at hmod ⊢
        omega
      rw [show toChunks (c :: cs) = (c :: cs).take 8 :: toChunks ((c :: cs).drop 8) from by
        rw [toChunks]]
      simp only [List.map_cons, List.flatMap_cons]
      rw [byteBits_binToNat ((c :: cs).take 8)
        (fun x hx => hdig x (List.mem_of_mem_take hx))
        (by rw [List.length_take]; omega)]
      rw [ih ((c :: cs).drop 8).length (by simp only [List.length_drop]; omega) _ rfl
        (by simp only [List.length_drop]; omega)
        (fun x hx => hdig x (List.mem_of_mem_drop hx))]
      exact List.take_append_drop 8 (c :: cs)

theorem pad_header_length (s : List Char) :
    (zfill8 (natToBin (8 - s.length % 8))).length = 8 :=
  zfill8_length _ (natToBin_length_le _ (by omega))

theorem pad_length (s : List Char) :
    (padEncodedText s).length = 8 + s.length + (8 - s.length % 8) := by
  unfold padEncodedText
  rw [List.length_append, List.length_append, pad_header_length, List.length_replicate]
  omega

theorem pad_length_mod (s : List Char) : (padEncodedText s).length % 8 = 0 := by
  rw [pad_length]
  omega

theorem zfill8_digits (s : List Char) (h : ∀ c ∈ s, c = '0' ∨ c = '1') :
    ∀ c ∈ zfill8 s, c = '0' ∨ c = '1' := by
  intro c hc
  unfold zfill8 at hc
  rcases List.mem_append.mp hc with hx | hx
  · exact Or.inl (List.eq_of_mem_replicate hx)
  · exact h c hx

theorem pad_digits (s : List Char) (h : ∀ c ∈ s, c = '0' ∨ c = '1') :
    ∀ c ∈ padEncodedText s, c = '0' ∨ c = '1' := by
  intro c hc
  unfold padEncodedText at hc
  rcases List.mem_append.mp hc with hx | hx
  · exact zfill8_digits _ (natToBin_digits _) c hx
  · rcases List.mem_append.mp hx with hy | hy
    · exact h c hy
    · exact Or.inl (List.eq_of_mem_replicate hy)

theorem removePadding_padEncodedText (s : List Char) :
    removePadding (padEncodedText s) = some s := by
  unfold removePadding
  rw [if_neg (by
    intro hx
    have := pad_length s
    rw [hx] at this
    simp at this
    omega)]
  have htake : (padEncodedText s).take 8 = zfill8 (natToBin (8 - s.length % 8)) := by
    unfold padEncodedText
    exact List.take_left' (pad_header_length s)
  have hdrop : (padEncodedText s).drop 8 = s ++ List.replicate (8 - s.length % 8) '0' := by
    unfold padEncodedText
    exact List.drop_left' (pad_header_length s)
  rw [htake, hdrop, binToNat_zfill8, binToNat_natToBin]
  rw [if_neg (by omega)]
  congr 1
  rw [List.length_append, List.length_replicate]
  rw [show s.length + (8 - s.length % 8) - (8 - s.length % 8) = s.length from by omega]
  exact List.take_left' rfl

theorem getByteArray_pad (s : List Char) :
    getByteArray (padEncodedText s) = some ((toChunks (padEncodedText s)).map binToNat) := by
  unfold getByteArray
  rw [if_neg (by rw [pad_length_mod]; simp)]

/-- The whitespace characters of CPython's `str.split()` / `str.strip()`
(`Py_UNICODE_ISSPACE`): ASCII 9-13, 28-32, and the Unicode space characters. -/
def isPySpace (c : Char) : Bool :=
  (9 ≤ c.toNat && c.toNat ≤ 13) || (28 ≤ c.toNat && c.toNat ≤ 32) || c.toNat == 133 ||
  c.toNat == 160 || c.toNat == 5760 || (8192 ≤ c.toNat && c.toNat ≤ 8202) ||
  c.toNat == 8232 || c.toNat == 8233 || c.toNat == 8239 || c.toNat == 8287 ||
  c.toNat == 12288

/-- `line.strip()`: drop leading and trailing whitespace. -/
def pyStrip (s : List Char) : List Char :=
  ((s.dropWhile isPySpace).reverse.dropWhile isPySpace).reverse

/-- The accumulator loop of `s.split()` (split on whitespace runs, no empty
fields); `acc` holds the current field reversed. -/
def pySplitAux : List Char → List Char → List (List Char)
  | [], acc => if acc = [] then [] else [acc.reverse]
  | c :: cs, acc =>
    if isPySpace c then
      if acc = [] then pySplitAux cs [] else acc.reverse :: pySplitAux cs []
    else pySplitAux cs (c :: acc)

/-- `s.split()` with no separator argument. -/
def pySplit (s : List Char) : List (List Char) := pySplitAux s []

/-- The escaping in `output_codes`: the newline symbol is written as the two
characters backslash-`n`, the space symbol as backslash-`s`; all else verbatim. -/
def escapeChar (c : Char) : List Char :=
  if c = '\n' then ['\\', 'n'] else if c = ' ' then ['\\', 's'] else [c]

/-- The decoder's un-escaping of an emitted symbol string (`decode_text`). -/
def unescapeStr (s : List Char) : List Char :=
  if s = ['\\', 'n'] then ['\n'] else if s = ['\\', 's'] then [' '] else s

/-- `HuffmanCoding.output_codes`: one line `f"{char} {code}\n"` per entry of the
`codes` dict, with the newline and space symbols escaped. -/
def outputCodes (codes : List (Char × List Char)) : List (List Char) :=
  codes.map (fun p => escapeChar p.1 ++ ' ' :: (p.2 ++ ['\n']))

/-- `char, code = line.strip().split()`: `none` models the unpacking
`ValueError` when the line does not split into exactly two fields. -/
def parseLine (line : List Char) : Option (List Char × List Char) :=
  match pySplit (pyStrip line) with
  | [a, b] => some (a, b)
  | _ => none

/-- The loop in `decode_text` reading the persisted code table line by line. -/
def parseLines : List (List Char) → Option (List (List Char × List Char))
  | [] => some []
  | line :: ls =>
    match parseLine line, parseLines ls with
    | some p, some ps => some (p :: ps)
    | _, _ => none

/-- `HuffmanCoding.get_encoded_text`: concatenate `self.codes[character]` over
the text; `none` models a `KeyError`. -/
def getEncodedText (codes : List (Char × List Char)) : List Char → Option (List Char)
  | [] => some []
  | ch :: cs =>
    match dLookup codes ch, getEncodedText codes cs with
    | some w, some rest => some (w ++ rest)
    | _, _ => none

/-- The bit-scanning loop of `decode_text`: grow `current_code` bit by bit and,
on a `reverse_mapping` hit, emit the (un-escaped) symbol and reset; bits left in
`current_code` at the end are silently dropped. -/
def decodeLoop (rm : List (List Char × List Char)) : List Char → List Char → List Char
  | [], _ => []
  | b :: bs, currentCode =>
    match dLookup rm (currentCode ++ [b]) with
    | some ch => unescapeStr ch ++ decodeLoop rm bs []
    | none => decodeLoop rm bs (currentCode ++ [b])

/-- `HuffmanCoding.decode_text`: parse the code file into `reverse_mapping`
(`self.reverse_mapping[code] = char`, overwriting entries left over from
compression, held in `rm0`), then scan the bit string. -/
def decodeText (rm0 : List (List Char × List Char)) (codesLines : List (List Char))
    (encodedText : List Char) : Option (List Char) :=
  match parseLines codesLines with
  | none => none
  | some es => some (decodeLoop (foldUpd rm0 (es.map fun p => (p.2, p.1))) encodedText [])

/-- `HuffmanCoding.decompress`, given the bytes of the `.bin` file and the lines
of the persisted code-table file (file I/O is the external collaborator). -/
def decompress (bs : List Nat) (rm0 : List (List Char × List Char))
    (codesLines : List (List Char)) : Option (List Char) :=
  match removePadding (bs.flatMap byteBits) with
  | none => none
  | some encodedText => decodeText rm0 codesLines encodedText

/-- What `HuffmanCoding.compress` leaves behind: the bytes written to the
`.bin` file, the `reverse_mapping` state of the object, and the content of
`input_codes.txt` (not written at all for empty input). -/
structure CompressOut where
  bytes : List Nat
  rm0 : List (List Char × List Char)
  codesFile : Option (List (List Char))
deriving DecidableEq, Repr

/-- `HuffmanCoding.compress`: empty text short-circuits to the single newline
byte (10) without building any tree; otherwise frequency dict → heap → merge →
codes (both dicts, in DFS assignment order) → encode → pad → pack → byte file,
plus the persisted code table. -/
def compress (text : List Char) : Option CompressOut :=
  if text = [] then some ⟨[10], [], none⟩
  else
    match makeCodes (mergeNodes (makeHeap (makeFrequencyDict text))) with
    | none => none
    | some entries =>
      match getEncodedText (foldUpd [] entries) text with
      | none => none
      | some encodedText =>
        match getByteArray (padEncodedText encodedText) with
        | none => none
        | some b =>
          some ⟨b, foldUpd [] (entries.map fun p => (p.2, [p.1])),
            some (outputCodes (foldUpd [] entries))⟩

/-- The whole-script round trip (src/main.py lines 213-216): `h.compress(path)`
followed by `h.decompress("input.bin", input_codes_path)` on the same object,
so `decompress` sees the compressor's `reverse_mapping` as its starting dict;
a missing code file is modelled as an empty one. -/
def roundTrip (text : List Char) : Option (List Char) :=
  match compress text with
  | none => none
  | some out => decompress out.bytes out.rm0 (out.codesFile.getD [])

/-- Python exception kinds raised by `HeapNode.__eq__`. -/
inductive PyExc where
  | attributeError
deriving DecidableEq, Repr

/-- `HeapNode.__eq__`: `if not other: return False` handles `None`; the next
line reads `self._class_`, an attribute that does not exist (the class
attribute is spelled `__class__`), so any truthy `other` raises
`AttributeError`. -/
def heapNodeEq (self : HNode) (other : Option HNode) : Except PyExc Bool :=
  match other with
  | none => Except.ok false
  | some _ => Except.error PyExc.attributeError

theorem dropWhile_cons_false {p : Char → Bool} (a : Char) (l : List Char)
    (h : p a = false) : List.dropWhile p (a :: l) = a :: l := by
  rw [List.dropWhile_cons, h]
  simp

theorem pySplitAux_run : ∀ (f : List Char) (r acc : List Char),
    (∀ x ∈ f, isPySpace x = false) →
    pySplitAux (f ++ r) acc = pySplitAux r (f.reverse ++ acc) := by
  intro f
  induction f with
  | nil => intro r acc _; simp
  | cons c f' ih =>
    intro r acc hf
    simp only [List.cons_append, pySplitAux, hf c (by simp), Bool.false_eq_true, if_false,
      List.append_eq]
    rw [ih r (c :: acc) (fun x hx => hf x (by simp [hx]))]
    simp

theorem pySplit_single (w : List Char) (hw : w ≠ [])
    (hwd : ∀ x ∈ w, isPySpace x = false) : pySplit w = [w] := by
  unfold pySplit
  rw [show w = w ++ [] from by simp, pySplitAux_run w [] [] hwd]
  simp only [pySplitAux, List.append_nil]
  rw [if_neg (by simpa using hw)]
  simp

theorem pySplit_pair (f w : List Char) (hf : f ≠ []) (hw : w ≠ [])
    (hfd : ∀ x ∈ f, isPySpace x = false) (hwd : ∀ x ∈ w, isPySpace x = false) :
    pySplit (f ++ ' ' :: w) = [f, w] := by
  unfold pySplit
  rw [pySplitAux_run f (' ' :: w) [] hfd]
  simp only [List.append_nil, pySplitAux, show isPySpace ' ' = true from rfl, if_true]
  rw [if_neg (by simpa using hf)]
  rw [show w = w ++ [] from by simp, pySplitAux_run w [] [] hwd]
  simp only [pySplitAux, List.append_nil]
  rw [if_neg (by simpa using hw)]
  simp

theorem pyStrip_wf (f w : List Char) (hf : f ≠ []) (hw : w ≠ [])
    (hfd : ∀ x ∈ f, isPySpace x = false) (hwd : ∀ x ∈ w, isPySpace x = false) :
    pyStrip (f ++ ' ' :: (w ++ ['\n'])) = f ++ ' ' :: w := by
  unfold pyStrip
  obtain ⟨a, f', hfa⟩ : ∃ a f', f = a :: f' := by
    cases f with
    | nil => exact absurd rfl hf
    | cons a f' => exact ⟨a, f', rfl⟩
  rcases List.eq_nil_or_concat w with hwn | ⟨w', b, hwb⟩
  · exact absurd hwn hw
  have hfront : List.dropWhile isPySpace (f ++ ' ' :: (w ++ ['\n']))
      = f ++ ' ' :: (w ++ ['\n']) := by
    rw [hfa, List.cons_append]
    exact dropWhile_cons_false a _ (hfd a (by simp [hfa]))
  rw [hfront]
  have hrev : (f ++ ' ' :: (w ++ ['\n'])).reverse
      = '\n' :: (w.reverse ++ ' ' :: f.reverse) := by
    simp [List.reverse_append]
  rw [hrev]
  have hback : List.dropWhile isPySpace ('\n' :: (w.reverse ++ ' ' :: f.reverse))
      = w.reverse ++ ' ' :: f.reverse := by
    rw [List.dropWhile_cons, show isPySpace '\n' = true from rfl]
    simp only [if_true]
    rw [hwb]
    simp only [List.concat_eq_append, List.reverse_append, List.reverse_singleton,
      List.singleton_append, List.cons_append]
    exact dropWhile_cons_false b _ (hwd b (by simp [hwb]))
  rw [hback]
  simp [List.reverse_append]

theorem parseLine_wf (f w : List Char) (hf : f ≠ []) (hw : w ≠ [])
    (hfd : ∀ x ∈ f, isPySpace x = false) (hwd : ∀ x ∈ w, isPySpace x = false) :
    parseLine (f ++ ' ' :: (w ++ ['\n'])) = some (f, w) := by
  unfold parseLine
  rw [pyStrip_wf f w hf hw hfd hwd, pySplit_pair f w hf hw hfd hwd]

/-- A code-table line whose symbol is an unescaped whitespace character has the
symbol stripped/split away, leaving a single field (or none): the two-variable
unpacking fails. -/
theorem parseLine_ws_symbol (c : Char) (w : List Char) (hc : isPySpace c = true)
    (hwd : ∀ x ∈ w, isPySpace x = false) :
    parseLine (c :: ' ' :: (w ++ ['\n'])) = none := by
  unfold parseLine
  have hstrip : pyStrip (c :: ' ' :: (w ++ ['\n'])) = w := by
    unfold pyStrip
    rw [List.dropWhile_cons, hc]
    simp only [if_true]
    rw [List.dropWhile_cons, show isPySpace ' ' = true from rfl]
    simp only [if_true]
    rcases List.eq_nil_or_concat w with hwn | ⟨w', b, hwb⟩
    · subst hwn
      simp only [List.nil_append]
      rw [List.dropWhile_cons, show isPySpace '\n' = true from rfl]
      simp
    · obtain ⟨a, w'', hwa⟩ : ∃ a w'', w = a :: w'' := by
        cases w with
        | nil => simp at hwb
        | cons a w'' => exact ⟨a, w'', rfl⟩
      have hfront : List.dropWhile isPySpace (w ++ ['\n']) = w ++ ['\n'] := by
        rw [hwa, List.cons_append]
        exact dropWhile_cons_false a _ (hwd a (by simp [hwa]))
      rw [hfront]
      have hrev : (w ++ ['\n']).reverse = '\n' :: w.reverse := by simp
      rw [hrev, List.dropWhile_cons, show isPySpace '\n' = true from rfl]
      simp only [if_true]
      rw [hwb]
      simp only [List.concat_eq_append, List.reverse_append, List.reverse_singleton,
        List.singleton_append]
      rw [dropWhile_cons_false b _ (hwd b (by simp [hwb]))]
      simp
  rw [hstrip]
  rcases List.eq_nil_or_concat w with hwn | ⟨w', b, hwb⟩
  · subst hwn
    rfl
  · rw [pySplit_single w (by rw [hwb]; simp) hwd]

theorem parseLines_none_of_mem : ∀ (lines : List (List Char)) (l : List Char),
    l ∈ lines → parseLine l = none → parseLines lines = none := by
  intro lines
  induction lines with
  | nil => intro l hl _; simp at hl
  | cons x ls ih =>
    intro l hl hnone
    rcases List.mem_cons.mp hl with h | h
    · subst h
      unfold parseLines
      rw [hnone]
    · unfold parseLines
      rw [ih l h hnone]
      cases parseLine x <;> rfl

theorem parseLines_map : ∀ (tbl : List (Char × List Char)),
    (∀ p ∈ tbl, (isPySpace p.1 = true → p.1 = ' ' ∨ p.1 = '\n') ∧ p.2 ≠ [] ∧
      ∀ x ∈ p.2, isPySpace x = false) →
    parseLines (outputCodes tbl) = some (tbl.map fun p => (escapeChar p.1, p.2)) := by
  intro tbl
  induction tbl with
  | nil => intro _; rfl
  | cons p tbl ih =>
    intro h
    obtain ⟨hws, hne, hdig⟩ := h p (by simp)
    have hesc_ne : escapeChar p.1 ≠ [] := by
      unfold escapeChar
      split
      · simp
      · split <;> simp
    have hesc_nws : ∀ x ∈ escapeChar p.1, isPySpace x = false := by
      intro x hx
      unfold escapeChar at hx
      split at hx
      · rcases List.mem_cons.mp hx with h1 | h1
        · subst h1; rfl
        · simp only [List.mem_singleton] at h1; subst h1; rfl
      · split at hx
        · rcases List.mem_cons.mp hx with h1 | h1
          · subst h1; rfl
          · simp only [List.mem_singleton] at h1; subst h1; rfl
        · simp only [List.mem_singleton] at hx
          subst hx
          rename_i hn hs
          cases hpx : isPySpace p.1
          · rfl
          · rcases hws hpx with h1 | h1
            · exact absurd h1 hs
            · exact absurd h1 hn
    show parseLines (outputCodes (p :: tbl)) = _
    unfold outputCodes
    simp only [List.map_cons]
    show parseLines ((escapeChar p.1 ++ ' ' :: (p.2 ++ ['\n'])) :: _) = _
    unfold parseLines
    rw [parseLine_wf _ _ hesc_ne hne hesc_nws hdig]
    have ihr := ih (fun q hq => h q (by simp [hq]))
    unfold outputCodes at ihr
    rw [ihr]

theorem unescape_escape (c : Char) : unescapeStr (escapeChar c) = [c] := by
  unfold escapeChar
  split
  · rename_i h; subst h; rfl
  · split
    · rename_i h; subst h; rfl
    · unfold unescapeStr
      rw [if_neg (by simp), if_neg (by simp)]

theorem decodeLoop_step (rm : List (List Char × List Char)) (w rest out : List Char)
    (hne : w ≠ []) (hkey : dLookup rm w = some out)
    (hpf : ∀ i, 0 < i → i < w.length → dLookup rm (w.take i) = none) :
    decodeLoop rm (w ++ rest) [] = unescapeStr out ++ decodeLoop rm rest [] := by
  suffices hgen : ∀ (w2 cur : List Char), cur ++ w2 = w → w2 ≠ [] →
      decodeLoop rm (w2 ++ rest) cur = unescapeStr out ++ decodeLoop rm rest [] by
    exact hgen w [] rfl hne
  intro w2
  induction w2 with
  | nil => intro cur _ h2; exact absurd rfl h2
  | cons b w2' ih =>
    intro cur hcur _
    cases w2' with
    | nil =>
      have hcw : cur ++ [b] = w := hcur
      show (match dLookup rm (cur ++ [b]) with
        | some ch => unescapeStr ch ++ decodeLoop rm rest []
        | none => decodeLoop rm rest (cur ++ [b])) = _
      rw [hcw, hkey]
    | cons b2 w2'' =>
      have hproper : dLookup rm (cur ++ [b]) = none := by
        have htake : w.take (cur.length + 1) = cur ++ [b] := by
          rw [← hcur, List.take_append_eq_append_take]
          simp
        rw [← htake]
        refine hpf (cur.length + 1) (by omega) ?_
        rw [← hcur]
        simp only [List.length_append, List.length_cons]
        omega
      show (match dLookup rm (cur ++ [b]) with
        | some ch => unescapeStr ch ++ decodeLoop rm ((b2 :: w2'') ++ rest) []
        | none => decodeLoop rm ((b2 :: w2'') ++ rest) (cur ++ [b])) = _
      rw [hproper]
      exact ih (cur ++ [b]) (by rw [← hcur]; simp) (by simp)

theorem decodeLoop_encoded (rm : List (List Char × List Char))
    (codesD : List (Char × List Char))
    (h : ∀ c w, dLookup codesD c = some w → w ≠ [] ∧
      dLookup rm w = some (escapeChar c) ∧
      ∀ i, 0 < i → i < w.length → dLookup rm (w.take i) = none) :
    ∀ (ts E : List Char), getEncodedText codesD ts = some E →
    decodeLoop rm E [] = ts := by
  intro ts
  induction ts with
  | nil =>
    intro E hE
    unfold getEncodedText at hE
    injection hE with hE
    subst hE
    rfl
  | cons c cs ih =>
    intro E hE
    unfold getEncodedText at hE
    cases hw : dLookup codesD c with
    | none => rw [hw] at hE; exact absurd hE (by simp)
    | some w =>
      rw [hw] at hE
      cases hr : getEncodedText codesD cs with
      | none => rw [hr] at hE; exact absurd hE (by simp)
      | some rest =>
        rw [hr] at hE
        injection hE with hE
        subst hE
        obtain ⟨hne, hkey, hpf⟩ := h c w hw
        rw [decodeLoop_step rm w rest _ hne hkey hpf, ih rest hr, unescape_escape]
        rfl

theorem getEncodedText_isSome (codes : List (Char × List Char)) :
    ∀ (ts : List Char), (∀ c ∈ ts, c ∈ codes.map Prod.fst) →
    ∃ E, getEncodedText codes ts = some E := by
  intro ts
  induction ts with
  | nil => intro _; exact ⟨[], rfl⟩
  | cons c cs ih =>
    intro hc
    obtain ⟨E', hE'⟩ := ih (fun x hx => hc x (by simp [hx]))
    have hsome : dLookup codes c ≠ none := by
      intro hx
      exact (dLookup_eq_none codes c).mp hx (hc c (by simp))
    cases hw : dLookup codes c with
    | none => exact absurd hw hsome
    | some w =>
      refine ⟨w ++ E', ?_⟩
      unfold getEncodedText
      rw [hw, hE']

theorem flatMap_leaf (freq : List (Char × Nat)) :
    (freq.map fun p => HNode.leaf p.1 p.2).flatMap HNode.leaves = freq := by
  induction freq with
  | nil => rfl
  | cons p ps ih => simp [HNode.leaves, ih]

theorem leafChars_eq (t : HNode) : t.leafChars = t.leaves.map Prod.fst := by
  induction t with
  | leaf c f => rfl
  | node f l r ihl ihr => simp [HNode.leafChars, HNode.leaves, ihl, ihr]

theorem makeCodes_merge (freq : List (Char × Nat)) (hne : freq ≠ []) :
    ∃ root, mergeNodes (makeHeap freq) = [root] ∧
      makeCodes (mergeNodes (makeHeap freq)) = some (makeCodesHelper root []) ∧
      List.Perm (HNode.leaves root) freq := by
  have hlen : (mergeNodes (makeHeap freq)).length = 1 := by
    refine mergeNodes_length (makeHeap freq).length _ rfl ?_
    rw [makeHeap_length]
    cases freq with
    | nil => exact absurd rfl hne
    | cons p ps => simp
  obtain ⟨root, hroot⟩ := List.length_eq_one.mp hlen
  refine ⟨root, hroot, ?_, ?_⟩
  · unfold makeCodes
    rw [hroot, heappop_single]
  · have h1 := mergeNodes_leaves (makeHeap freq).length (makeHeap freq) rfl
    rw [hroot] at h1
    simp only [List.flatMap_cons, List.flatMap_nil, List.append_nil] at h1
    refine List.Perm.trans h1 ?_
    refine List.Perm.trans ((makeHeap_perm freq).flatMap_right HNode.leaves) ?_
    rw [flatMap_leaf]

theorem two_mem_length {α : Type} (l : List α) (a b : α) (ha : a ∈ l) (hb : b ∈ l)
    (hab : a ≠ b) : 2 ≤ l.length := by
  cases l with
  | nil => simp at ha
  | cons x t =>
    cases t with
    | nil =>
      simp only [List.mem_singleton] at ha hb
      exact absurd (ha.trans hb.symm) hab
    | cons y u => simp

theorem mem_keys_lookup {κ β : Type} [DecidableEq κ] (d : List (κ × β)) (k : κ)
    (h : k ∈ d.map Prod.fst) : ∃ v, dLookup d k = some v := by
  cases hl : dLookup d k with
  | none => exact absurd ((dLookup_eq_none d k).mp hl) (by simp [h])
  | some v => exact ⟨v, rfl⟩

theorem table_spec (t : List Char) (h1 : t ≠ []) :
    ∃ root tbl,
      mergeNodes (makeHeap (makeFrequencyDict t)) = [root] ∧
      makeCodes (mergeNodes (makeHeap (makeFrequencyDict t))) = some tbl ∧
      tbl = makeCodesHelper root [] ∧
      (tbl.map Prod.fst).Nodup ∧
      (∀ c, c ∈ tbl.map Prod.fst ↔ c ∈ t) ∧
      (∀ p ∈ tbl, ∀ x ∈ p.2, x = '0' ∨ x = '1') ∧
      List.Pairwise (fun p q : Char × List Char =>
        pfx p.2 q.2 = false ∧ pfx q.2 p.2 = false) tbl ∧
      (tbl.map Prod.snd).Nodup := by
  have hfne : makeFrequencyDict t ≠ [] := by
    intro hx
    obtain ⟨c, hc⟩ : ∃ c, c ∈ t := by
      cases t with
      | nil => exact absurd rfl h1
      | cons c cs => exact ⟨c, by simp⟩
    have := (makeFrequencyDict_keys_mem t c).mpr hc
    rw [hx] at this
    simp at this
  obtain ⟨root, hroot, hmc, hleaves⟩ := makeCodes_merge (makeFrequencyDict t) hfne
  refine ⟨root, makeCodesHelper root [], hroot, hmc, rfl, ?_, ?_, ?_, mch_pairwise root [], ?_⟩
  · rw [mch_chars, leafChars_eq]
    exact ((hleaves.map Prod.fst).nodup_iff).mpr (makeFrequencyDict_keys_nodup t)
  · intro c
    rw [mch_chars, leafChars_eq]
    rw [(hleaves.map Prod.fst).mem_iff]
    exact makeFrequencyDict_keys_mem t c
  · intro p hp x hx
    rcases mch_digits root [] p hp x hx with h | h
    · simp at h
    · exact h
  · have hp := mch_pairwise root []
    have hp2 : List.Pairwise (fun p q : Char × List Char => p.2 ≠ q.2)
        (makeCodesHelper root []) := by
      refine hp.imp ?_
      intro a b hab heq
      rw [heq] at hab
      rw [pfx_refl] at hab
      exact absurd hab.1 (by simp)
    exact (List.pairwise_map).mpr hp2

theorem compress_eq (t : List Char) (h1 : t ≠ []) (tbl : List (Char × List Char))
    (E : List Char)
    (hmc : makeCodes (mergeNodes (makeHeap (makeFrequencyDict t))) = some tbl)
    (hfold : foldUpd [] tbl = tbl)
    (hE : getEncodedText tbl t = some E) :
    compress t = some ⟨(toChunks (padEncodedText E)).map binToNat,
      foldUpd [] (tbl.map fun p => (p.2, [p.1])), some (outputCodes tbl)⟩ := by
  unfold compress
  rw [if_neg h1, hmc]
  simp only [hfold, hE, getByteArray_pad]

theorem map_swap_escape (tbl : List (Char × List Char)) :
    (tbl.map fun p => (escapeChar p.1, p.2)).map (fun p => (p.2, p.1))
      = tbl.map fun p => (p.2, escapeChar p.1) := by
  rw [List.map_map]
  rfl

theorem keys_map_pair₁ (tbl : List (Char × List Char)) :
    (tbl.map fun p => (p.2, [p.1])).map Prod.fst = tbl.map Prod.snd := by
  rw [List.map_map]
  rfl

theorem keys_map_pair₂ (tbl : List (Char × List Char)) :
    (tbl.map fun p => (p.2, escapeChar p.1)).map Prod.fst = tbl.map Prod.snd := by
  rw [List.map_map]
  rfl

theorem getEncodedText_digits (codes : List (Char × List Char))
    (hd : ∀ p ∈ codes, ∀ x ∈ p.2, x = '0' ∨ x = '1') :
    ∀ (ts E : List Char), getEncodedText codes ts = some E →
    ∀ x ∈ E, x = '0' ∨ x = '1' := by
  intro ts
  induction ts with
  | nil =>
    intro E hE
    unfold getEncodedText at hE
    injection hE with hE
    subst hE
    simp
  | cons c cs ih =>
    intro E hE x hx
    unfold getEncodedText at hE
    cases hw : dLookup codes c with
    | none => rw [hw] at hE; exact absurd hE (by simp)
    | some w =>
      rw [hw] at hE
      cases hr : getEncodedText codes cs with
      | none => rw [hr] at hE; exact absurd hE (by simp)
      | some rest =>
        rw [hr] at hE
        injection hE with hE
        subst hE
        rcases List.mem_append.mp hx with h | h
        · exact hd _ (mem_of_dLookup codes c w hw) x h
        · exact ih rest hr x h

/-- For a non-empty text with at least two distinct symbols and no whitespace
symbols other than the space and the newline, the full compress/decompress
pipeline reproduces the text. -/
theorem roundTrip_eq (t : List Char) (h1 : t ≠ [])
    (h2 : ∃ a ∈ t, ∃ b ∈ t, a ≠ b)
    (h3 : ∀ c ∈ t, isPySpace c = true → c = ' ' ∨ c = '\n') :
    roundTrip t = some t := by
  obtain ⟨root, tbl, hroot, hmc, htbl, hnodup, hmemiff, hdigits, hpair, hsndnodup⟩ :=
    table_spec t h1
  obtain ⟨a, ha, b, hb, hab⟩ := h2
  have hlen2 : 2 ≤ (makeFrequencyDict t).length := by
    have h2a := (makeFrequencyDict_keys_mem t a).mpr ha
    have h2b := (makeFrequencyDict_keys_mem t b).mpr hb
    have := two_mem_length _ a b h2a h2b hab
    simpa using this
  obtain ⟨f0, l0, r0, hnode⟩ := mergeNodes_isNode (makeHeap (makeFrequencyDict t)).length
    (makeHeap (makeFrequencyDict t)) rfl (by rw [makeHeap_length]; omega)
  have hrootnode : root = HNode.node f0 l0 r0 := by
    rw [hroot] at hnode
    injection hnode with hx
  have hcode_ne : ∀ p ∈ tbl, p.2 ≠ [] := by
    intro p hp
    rw [htbl, hrootnode] at hp
    obtain ⟨c, s, hcs⟩ := mch_node_nonempty f0 l0 r0 [] p hp
    rw [hcs]
    simp
  have hfold : foldUpd [] tbl = tbl := by
    have := foldUpd_fresh tbl [] hnodup (by intro k _; simp)
    simpa using this
  obtain ⟨E, hE⟩ := getEncodedText_isSome tbl t (fun c hc => (hmemiff c).mpr hc)
  have hEdig : ∀ x ∈ E, x = '0' ∨ x = '1' := getEncodedText_digits tbl hdigits t E hE
  have hcomp := compress_eq t h1 tbl E hmc hfold hE
  unfold roundTrip
  rw [hcomp]
  show decompress ((toChunks (padEncodedText E)).map binToNat)
    (foldUpd [] (tbl.map fun p => (p.2, [p.1]))) (outputCodes tbl) = some t
  unfold decompress
  rw [toChunks_flatMap (padEncodedText E).length _ rfl (pad_length_mod E)
    (pad_digits E hEdig)]
  rw [removePadding_padEncodedText]
  show decodeText (foldUpd [] (tbl.map fun p => (p.2, [p.1]))) (outputCodes tbl) E = some t
  unfold decodeText
  have hcond : ∀ p ∈ tbl, (isPySpace p.1 = true → p.1 = ' ' ∨ p.1 = '\n') ∧ p.2 ≠ [] ∧
      ∀ x ∈ p.2, isPySpace x = false := by
    intro p hp
    refine ⟨?_, hcode_ne p hp, ?_⟩
    · intro hws
      exact h3 p.1 ((hmemiff p.1).mp (List.mem_map_of_mem Prod.fst hp)) hws
    · intro x hx
      rcases hdigits p hp x hx with h | h <;> subst h <;> decide
  rw [parseLines_map tbl hcond]
  show some (decodeLoop (foldUpd (foldUpd [] (tbl.map fun p => (p.2, [p.1])))
    ((tbl.map fun p => (escapeChar p.1, p.2)).map fun p => (p.2, p.1))) E []) = some t
  rw [map_swap_escape]
  refine congrArg some (decodeLoop_encoded _ tbl ?_ t E hE)
  intro c w hw
  have hmem := mem_of_dLookup tbl c w hw
  refine ⟨hcode_ne _ hmem, ?_, ?_⟩
  · refine dLookup_foldUpd_mem _ _ w (escapeChar c) ?_ ?_
    · rw [keys_map_pair₂]
      exact hsndnodup
    · exact List.mem_map_of_mem (fun p => (p.2, escapeChar p.1)) hmem
  · intro i hi0 hilen
    have hnk : w.take i ∉ tbl.map Prod.snd := by
      intro hmem2
      obtain ⟨q, hq, hq2⟩ := List.mem_map.mp hmem2
      have hqne : q ≠ (c, w) := by
        intro hx
        rw [hx] at hq2
        have : (w.take i).length = i := by
          rw [List.length_take]
          omega
        rw [← hq2] at this
        simp only [Prod.snd] at this
        omega
      have hsymm : Symmetric (fun p q : Char × List Char =>
          pfx p.2 q.2 = false ∧ pfx q.2 p.2 = false) := by
        intro x y hxy
        exact ⟨hxy.2, hxy.1⟩
      have hR := (List.Pairwise.forall hsymm hpair) hq hmem hqne
      rw [hq2] at hR
      rw [pfx_take] at hR
      exact absurd hR.1 (by simp)
    rw [dLookup_foldUpd_not_mem _ _ _ (by rw [keys_map_pair₂]; exact hnk)]
    rw [dLookup_foldUpd_not_mem _ _ _ (by rw [keys_map_pair₁]; exact hnk)]
    rfl

theorem mergeNodes_stop (l : List HNode) (h : ¬ 1 < l.length) : mergeNodes l = l := by
  unfold mergeNodes
  rw [dif_neg h]

theorem mergeNodes_cons_cons (l : List HNode) (n1 n2 : HNode) (h1' h2' : List HNode)
    (hl : 1 < l.length) (e1 : heappop l = some (n1, h1'))
    (e2 : heappop h1' = some (n2, h2')) :
    mergeNodes l = mergeNodes (heappush h2' (HNode.node (n1.freq + n2.freq) n1 n2)) := by
  unfold mergeNodes
  rw [dif_pos hl]
  split
  · rename_i node1 heap1 hp1
    rw [e1] at hp1
    injection hp1 with hp1
    injection hp1 with hpa hpb
    subst hpa
    subst hpb
    split
    · rename_i node2 heap2 hp2
      rw [e2] at hp2
      injection hp2 with hp2
      injection hp2 with hpa hpb
      subst hpa
      subst hpb
      exact mergeNodes.eq_def _
    · rename_i hp2
      rw [e2] at hp2
      exact absurd hp2 (by simp)
  · rename_i hp1
    rw [e1] at hp1
    exact absurd hp1 (by simp)

theorem ev_byteBits8 : byteBits 8 = ['0', '0', '0', '0', '1', '0', '0', '0'] := by
  have hb : binToNat ['0', '0', '0', '0', '1', '0', '0', '0'] = 8 := by decide
  have h2 := byteBits_binToNat ['0', '0', '0', '0', '1', '0', '0', '0']
    (by decide) (by decide)
  rw [hb] at h2
  exact h2

theorem ev_byteBits10 : byteBits 10 = ['0', '0', '0', '0', '1', '0', '1', '0'] := by
  have hb : binToNat ['0', '0', '0', '0', '1', '0', '1', '0'] = 10 := by decide
  have h2 := byteBits_binToNat ['0', '0', '0', '0', '1', '0', '1', '0']
    (by decide) (by decide)
  rw [hb] at h2
  exact h2

theorem ev_byteBits0 : byteBits 0 = ['0', '0', '0', '0', '0', '0', '0', '0'] := by decide

theorem ev_pad_nil : padEncodedText []
    = ['0', '0', '0', '0', '1', '0', '0', '0',
       '0', '0', '0', '0', '0', '0', '0', '0'] := by
  rw [show padEncodedText []
      = zfill8 (natToBin 8) ++ ([] ++ List.replicate 8 '0') from rfl]
  rw [show zfill8 (natToBin 8) = byteBits 8 from rfl, ev_byteBits8]
  decide

theorem ev_chunks16 : toChunks ['0', '0', '0', '0', '1', '0', '0', '0',
       '0', '0', '0', '0', '0', '0', '0', '0']
    = [['0', '0', '0', '0', '1', '0', '0', '0'],
       ['0', '0', '0', '0', '0', '0', '0', '0']] := by
  rw [toChunks]
  norm_num
  rw [toChunks]
  norm_num
  rw [toChunks]

theorem ev_siftup_b : siftup [HNode.leaf 'b' 2] 0 = [HNode.leaf 'b' 2] := by
  unfold siftup
  unfold siftupLoop
  norm_num [lget]
  unfold siftdownLoop
  norm_num [lget]

theorem ev_pop_ab : heappop [HNode.leaf 'a' 1, HNode.leaf 'b' 2]
    = some (HNode.leaf 'a' 1, [HNode.leaf 'b' 2]) := by
  show some (lget [HNode.leaf 'a' 1] 0,
    siftup ([HNode.leaf 'a' 1].set 0 (HNode.leaf 'b' 2)) 0) = _
  rw [show ([HNode.leaf 'a' 1].set 0 (HNode.leaf 'b' 2)) = [HNode.leaf 'b' 2] from rfl,
    ev_siftup_b]
  rfl

theorem ev_push_ab : heappush [HNode.leaf 'a' 1] (HNode.leaf 'b' 2)
    = [HNode.leaf 'a' 1, HNode.leaf 'b' 2] := by
  unfold heappush siftdown
  unfold siftdownLoop
  norm_num [lget, HNode.freq]

theorem ev_makeHeap_ab : makeHeap [('a', 1), ('b', 2)]
    = [HNode.leaf 'a' 1, HNode.leaf 'b' 2] := by
  show heappush (heappush [] (HNode.leaf 'a' 1)) (HNode.leaf 'b' 2) = _
  rw [heappush_nil, ev_push_ab]

theorem ev_merge_ab : mergeNodes [HNode.leaf 'a' 1, HNode.leaf 'b' 2]
    = [HNode.node 3 (HNode.leaf 'a' 1) (HNode.leaf 'b' 2)] := by
  rw [mergeNodes_cons_cons _ _ _ _ _ (by norm_num) ev_pop_ab (heappop_single _)]
  rw [show (HNode.leaf 'a' 1).freq + (HNode.leaf 'b' 2).freq = 3 from rfl]
  rw [heappush_nil]
  rw [mergeNodes_stop _ (by norm_num)]

theorem ev_codes_ab : makeCodes (mergeNodes (makeHeap [('a', 1), ('b', 2)]))
    = some [('a', ['0']), ('b', ['1'])] := by
  rw [ev_makeHeap_ab, ev_merge_ab]
  unfold makeCodes
  rw [heappop_single]
  rfl

theorem ev_roundTrip_single (t : List Char) (n : Nat)
    (hfreq : makeFrequencyDict t = [('a', n)]) (ht : t ≠ [])
    (hE : getEncodedText [('a', [])] t = some []) : roundTrip t = none := by
  have hheap : makeHeap [('a', n)] = [HNode.leaf 'a' n] := by
    show heappush [] (HNode.leaf 'a' n) = _
    rw [heappush_nil]
  have hmc : makeCodes (mergeNodes (makeHeap (makeFrequencyDict t)))
      = some [('a', [])] := by
    rw [hfreq, hheap, mergeNodes_stop _ (by norm_num)]
    unfold makeCodes
    rw [heappop_single]
    rfl
  have hfold : foldUpd [] [('a', ([] : List Char))] = [('a', [])] := by decide
  have hcomp := compress_eq t ht [('a', [])] [] hmc hfold hE
  have hbytes : (toChunks (padEncodedText [])).map binToNat = [8, 0] := by
    rw [ev_pad_nil, ev_chunks16]
    decide
  rw [hbytes] at hcomp
  have hrm0 : foldUpd [] ([('a', ([] : List Char))].map fun p => (p.2, [p.1]))
      = [([], ['a'])] := by decide
  rw [hrm0] at hcomp
  have hlines : outputCodes [('a', ([] : List Char))] = [['a', ' ', '\n']] := by decide
  rw [hlines] at hcomp
  unfold roundTrip
  rw [hcomp]
  show decompress [8, 0] [([], ['a'])] [['a', ' ', '\n']] = none
  unfold decompress
  have hbits : ([8, 0] : List Nat).flatMap byteBits
      = ['0', '0', '0', '0', '1', '0', '0', '0',
         '0', '0', '0', '0', '0', '0', '0', '0'] := by
    simp [ev_byteBits8, ev_byteBits0]
  rw [hbits]
  rw [show removePadding ['0', '0', '0', '0', '1', '0', '0', '0',
      '0', '0', '0', '0', '0', '0', '0', '0'] = some [] from by decide]
  show decodeText [([], ['a'])] [['a', ' ', '\n']] [] = none
  unfold decodeText
  rw [show parseLines [['a', ' ', '\n']] = none from by decide]

theorem compress_isSome (t : List Char) (h1 : t ≠ []) : (compress t).isSome := by
  obtain ⟨root, tbl, hroot, hmc, htbl, hnodup, hmemiff, hdigits, hpair, hsndnodup⟩ :=
    table_spec t h1
  have hfold : foldUpd [] tbl = tbl := by
    have := foldUpd_fresh tbl [] hnodup (by intro k _; simp)
    simpa using this
  obtain ⟨E, hE⟩ := getEncodedText_isSome tbl t (fun c hc => (hmemiff c).mpr hc)
  rw [compress_eq t h1 tbl E hmc hfold hE]
  rfl

theorem decompress_marker : decompress [10] [] [] = some [] := by
  unfold decompress
  have hbits : ([10] : List Nat).flatMap byteBits
      = ['0', '0', '0', '0', '1', '0', '1', '0'] := by
    simp [ev_byteBits10]
  rw [hbits]
  rw [show removePadding ['0', '0', '0', '0', '1', '0', '1', '0'] = some [] from by decide]
  rfl

/-- Claim C1 (counterexample): the round trip is NOT the identity for every
non-empty text over any alphabet — for the single-symbol text `"a"` the lone
symbol gets the empty code, the persisted table line `"a \n"` does not split
into two fields, and decompression fails instead of returning `"a"`. -/
theorem huffman_C1_counterexample : roundTrip ['a'] ≠ some ['a'] := by
  have h := ev_roundTrip_single ['a'] 1 (by decide) (by decide) (by decide)
  rw [h]
  simp

/-- Claim C1 (amended): for every non-empty input text with at least two
distinct symbols, none of whose symbols is a whitespace character other than
the space or the newline, running the full pipeline (frequency count, heap
build, merge, code assignment, encode, pad, pack) and then the full decode
pipeline (unpack, remove padding, greedy decode against the persisted code
table) reconstructs the text exactly. -/
theorem huffman_C1_roundtrip (t : List Char) (h1 : t ≠ [])
    (h2 : ∃ a ∈ t, ∃ b ∈ t, a ≠ b)
    (h3 : ∀ c ∈ t, isPySpace c = true → c = ' ' ∨ c = '\n') :
    roundTrip t = some t :=
  roundTrip_eq t h1 h2 h3

/-- Witness for C1: the two-symbol text `"ab"` satisfies the hypotheses and
round-trips. -/
theorem huffman_C1_witness :
    ((['a', 'b'] : List Char) ≠ [] ∧
      (∃ a ∈ (['a', 'b'] : List Char), ∃ b ∈ (['a', 'b'] : List Char), a ≠ b) ∧
      (∀ c ∈ (['a', 'b'] : List Char), isPySpace c = true → c = ' ' ∨ c = '\n')) ∧
    roundTrip ['a', 'b'] = some ['a', 'b'] :=
  ⟨⟨by decide, by decide, by decide⟩,
    huffman_C1_roundtrip ['a', 'b'] (by decide) (by decide) (by decide)⟩

/-- Claim C2 (the code violates it): for the one-symbol frequency map
`{'a': 4}` tree building indeed performs no merge (the root is the leaf
itself), but `make_codes` assigns that symbol the EMPTY code string, not a
non-empty one such as `"0"`; consequently `"aaaa"` encodes to zero payload bits
and the round trip fails. -/
theorem huffman_C2_single_symbol :
    mergeNodes (makeHeap [('a', 4)]) = [HNode.leaf 'a' 4] ∧
    makeCodes (mergeNodes (makeHeap [('a', 4)])) = some [('a', [])] ∧
    roundTrip ['a', 'a', 'a', 'a'] = none := by
  have hheap : makeHeap [('a', 4)] = [HNode.leaf 'a' 4] := by
    show heappush [] (HNode.leaf 'a' 4) = _
    rw [heappush_nil]
  have hmerge : mergeNodes (makeHeap [('a', 4)]) = [HNode.leaf 'a' 4] := by
    rw [hheap, mergeNodes_stop _ (by norm_num)]
  refine ⟨hmerge, ?_,
    ev_roundTrip_single ['a', 'a', 'a', 'a'] 4 (by decide) (by decide) (by decide)⟩
  rw [hmerge]
  unfold makeCodes
  rw [heappop_single]
  rfl

/-- Claim C3: `pad_encoded_text` computes `extra_padding = 8 - len % 8`, which
lies in `[1, 8]` and is never 0; the result is the 8-bit header (which decodes
back to `extra_padding`) followed by the input followed by `extra_padding` zero
bits, its length is a multiple of 8, and the fatal length-check branch of
`get_byte_array` is therefore never taken on padded input. -/
theorem huffman_C3_padding (s : List Char) :
    1 ≤ 8 - s.length % 8 ∧ 8 - s.length % 8 ≤ 8 ∧
    padEncodedText s
      = zfill8 (natToBin (8 - s.length % 8)) ++ s
        ++ List.replicate (8 - s.length % 8) '0' ∧
    (zfill8 (natToBin (8 - s.length % 8))).length = 8 ∧
    binToNat (zfill8 (natToBin (8 - s.length % 8))) = 8 - s.length % 8 ∧
    (padEncodedText s).length % 8 = 0 ∧
    (getByteArray (padEncodedText s)).isSome := by
  refine ⟨by omega, by omega, ?_, pad_header_length s, ?_, pad_length_mod s, ?_⟩
  · unfold padEncodedText
    rw [List.append_assoc]
  · rw [binToNat_zfill8, binToNat_natToBin]
  · rw [getByteArray_pad]
    rfl

/-- Claim C4: for every frequency map, the code table produced by the
depth-first tree walk is prefix-free — no assigned code is a proper prefix of
another distinct symbol's code. -/
theorem huffman_C4_prefix_free (freq : List (Char × Nat)) (tbl : List (Char × List Char))
    (h : makeCodes (mergeNodes (makeHeap freq)) = some tbl) :
    ∀ p ∈ tbl, ∀ q ∈ tbl, p.1 ≠ q.1 → ¬ (pfx p.2 q.2 = true ∧ p.2 ≠ q.2) := by
  unfold makeCodes at h
  cases hp : heappop (mergeNodes (makeHeap freq)) with
  | none => rw [hp] at h; exact absurd h (by simp)
  | some pr =>
    rw [hp] at h
    injection h with h
    subst h
    intro p hp' q hq' hne hcon
    obtain ⟨hpfx, hneq⟩ := hcon
    have hpq : p ≠ q := fun hx => hne (by rw [hx])
    have hsymm : Symmetric (fun p q : Char × List Char =>
        pfx p.2 q.2 = false ∧ pfx q.2 p.2 = false) := fun x y hxy => ⟨hxy.2, hxy.1⟩
    have hR := (List.Pairwise.forall hsymm (mch_pairwise pr.1 [])) hp' hq' hpq
    rw [hpfx] at hR
    exact absurd hR.1 (by simp)

/-- Witness for C4: the frequency map `[('a',1), ('b',2)]` yields the table
`a ↦ "0"`, `b ↦ "1"`, on which the prefix-free property holds. -/
theorem huffman_C4_witness :
    makeCodes (mergeNodes (makeHeap [('a', 1), ('b', 2)]))
      = some [('a', ['0']), ('b', ['1'])] ∧
    (∀ p ∈ [('a', ['0']), ('b', ['1'])], ∀ q ∈ [('a', ['0']), ('b', ['1'])],
      p.1 ≠ q.1 → ¬ (pfx p.2 q.2 = true ∧ p.2 ≠ q.2)) :=
  ⟨ev_codes_ab, huffman_C4_prefix_free [('a', 1), ('b', 2)] _ ev_codes_ab⟩

/-- Claim C5 (counterexample): a padding header of 0 does NOT produce a decode
error — `remove_padding` silently discards the entire 8-bit payload
(`s[:-0]` is the empty slice) and returns the empty string. -/
theorem huffman_C5_counterexample :
    removePadding ['0', '0', '0', '0', '0', '0', '0', '0',
      '1', '1', '1', '1', '1', '1', '1', '1'] = some [] := by decide

/-- Claim C5 (amended): `remove_padding` never reports an error on a non-empty
bit string; when the 8-bit header decodes to 0, or to at least the number of
remaining bits, it silently returns the empty payload. -/
theorem huffman_C5_no_error (bits : List Char) (h : bits ≠ []) :
    (removePadding bits).isSome ∧
    ((binToNat (bits.take 8) = 0 ∨ (bits.drop 8).length ≤ binToNat (bits.take 8)) →
      removePadding bits = some []) := by
  constructor
  · unfold removePadding
    rw [if_neg h]
    split <;> rfl
  · intro hc
    unfold removePadding
    rw [if_neg h]
    by_cases h0 : binToNat (bits.take 8) = 0
    · rw [if_pos h0]
    · rw [if_neg h0]
      rcases hc with hc | hc
      · exact absurd hc h0
      · rw [show (bits.drop 8).length - binToNat (bits.take 8) = 0 from by omega,
          List.take_zero]

/-- Witness for C5: the bit string with header 9 and a 4-bit remainder is
non-empty; `remove_padding` silently yields the empty payload. -/
theorem huffman_C5_witness :
    (['0', '0', '0', '0', '1', '0', '0', '1', '1', '1', '1', '1'] : List Char) ≠ [] ∧
    ((removePadding ['0', '0', '0', '0', '1', '0', '0', '1', '1', '1', '1', '1']).isSome ∧
      ((binToNat ((['0', '0', '0', '0', '1', '0', '0', '1', '1', '1', '1', '1']
          : List Char).take 8) = 0 ∨
        ((['0', '0', '0', '0', '1', '0', '0', '1', '1', '1', '1', '1']
          : List Char).drop 8).length
          ≤ binToNat ((['0', '0', '0', '0', '1', '0', '0', '1', '1', '1', '1', '1']
          : List Char).take 8)) →
        removePadding ['0', '0', '0', '0', '1', '0', '0', '1', '1', '1', '1', '1']
          = some [])) :=
  ⟨by decide, huffman_C5_no_error _ (by decide)⟩

/-- Claim C6: compressing the empty text skips tree construction and writes the
single newline byte 10 as the empty-output marker, no code table is written,
and decompressing that marker yields the empty text (the bit-scanning loop runs
zero iterations): `decode(encode("")) = ""`. -/
theorem huffman_C6_empty :
    compress [] = some ⟨[10], [], none⟩ ∧
    decompress [10] [] [] = some [] ∧
    roundTrip [] = some [] := by
  refine ⟨rfl, decompress_marker, ?_⟩
  unfold roundTrip
  rw [show compress [] = some ⟨[10], [], none⟩ from rfl]
  exact decompress_marker

/-- Claim C7 (counterexample): persisting and reloading does NOT recover every
symbol-to-code table — a tab symbol is written unescaped, `line.strip().split()`
swallows it, and re-parsing fails instead of recovering `{'\t': "0"}`. -/
theorem huffman_C7_counterexample :
    (parseLines (outputCodes [('\t', ['0'])])).map
      (List.map fun p => (unescapeStr p.1, p.2)) = none := by decide

/-- Claim C7 (amended): for every symbol-to-code table whose symbols include no
whitespace characters other than space and newline and whose codes are
non-empty and whitespace-free, writing the table (escaping `'\n'` as
backslash-`n` and `' '` as backslash-`s`) and re-parsing and un-escaping it
recovers exactly the original symbol-to-code mapping; in particular texts with
literal newlines and spaces survive the persisted-table round trip. -/
theorem huffman_C7_escaping (tbl : List (Char × List Char))
    (h : ∀ p ∈ tbl, (isPySpace p.1 = true → p.1 = ' ' ∨ p.1 = '\n') ∧ p.2 ≠ [] ∧
      ∀ x ∈ p.2, isPySpace x = false) :
    (parseLines (outputCodes tbl)).map (List.map fun p => (unescapeStr p.1, p.2))
      = some (tbl.map fun p => ([p.1], p.2)) := by
  rw [parseLines_map tbl h]
  show some ((tbl.map fun p => (escapeChar p.1, p.2)).map fun p => (unescapeStr p.1, p.2))
    = _
  congr 1
  rw [List.map_map]
  refine List.map_congr_left ?_
  intro p hp
  show (unescapeStr (escapeChar p.1), p.2) = ([p.1], p.2)
  rw [unescape_escape]

/-- Witness for C7: a table containing the newline symbol, the space symbol and
an ordinary symbol survives the persisted-table round trip. -/
theorem huffman_C7_witness :
    (∀ p ∈ ([('\n', ['0']), (' ', ['1', '0']), ('x', ['1', '1'])]
        : List (Char × List Char)),
      (isPySpace p.1 = true → p.1 = ' ' ∨ p.1 = '\n') ∧ p.2 ≠ [] ∧
      ∀ x ∈ p.2, isPySpace x = false) ∧
    (parseLines (outputCodes [('\n', ['0']), (' ', ['1', '0']), ('x', ['1', '1'])])).map
      (List.map fun p => (unescapeStr p.1, p.2))
      = some [(['\n'], ['0']), ([' '], ['1', '0']), (['x'], ['1', '1'])] := by
  refine ⟨by decide, ?_⟩
  rw [huffman_C7_escaping [('\n', ['0']), (' ', ['1', '0']), ('x', ['1', '1'])] (by decide)]
  rfl

/-- Claim C8: tree building initializes one leaf per (symbol, frequency) pair
into a binary min-heap ordered by weight; `heappush` and `heappop` preserve the
heap shape and content, `heappop` extracts a minimum-weight node; each merge
step pops the two lowest nodes and pushes an internal node carrying their sum
with the first pop as left child and the second as right; the loop ends with
exactly one node, the root, whose weight is the total symbol count. -/
theorem huffman_C8_tree_build (freq : List (Char × Nat)) (hne : freq ≠ []) :
    List.Perm (makeHeap freq) (freq.map fun p => HNode.leaf p.1 p.2) ∧
    IsHeap (makeHeap freq) ∧
    (∀ h x, IsHeap h → IsHeap (heappush h x) ∧ List.Perm (heappush h x) (x :: h)) ∧
    (∀ h n h', IsHeap h → heappop h = some (n, h') →
      IsHeap h' ∧ List.Perm h (n :: h') ∧ ∀ m ∈ h', n.freq ≤ m.freq) ∧
    (∀ l n1 n2 h1' h2', 1 < l.length → heappop l = some (n1, h1') →
      heappop h1' = some (n2, h2') →
      mergeNodes l = mergeNodes (heappush h2' (HNode.node (n1.freq + n2.freq) n1 n2))) ∧
    ∃ root, mergeNodes (makeHeap freq) = [root] ∧
      root.freq = (freq.map Prod.snd).sum := by
  refine ⟨makeHeap_perm freq, makeHeap_isHeap freq,
    fun h x hh => ⟨heappush_isHeap h x hh, heappush_perm h x⟩,
    fun h n h' hh hp => ⟨heappop_isHeap h n h' hh hp, heappop_perm h n h' hp,
      heappop_min h n h' hh hp⟩,
    fun l n1 n2 h1' h2' hl e1 e2 => mergeNodes_cons_cons l n1 n2 h1' h2' hl e1 e2, ?_⟩
  have hlen1 : (mergeNodes (makeHeap freq)).length = 1 := by
    refine mergeNodes_length (makeHeap freq).length _ rfl ?_
    rw [makeHeap_length]
    exact List.length_pos.mpr hne
  obtain ⟨root, hroot⟩ := List.length_eq_one.mp hlen1
  refine ⟨root, hroot, ?_⟩
  have hw := mergeNodes_weight (makeHeap freq).length (makeHeap freq) rfl
  rw [hroot] at hw
  have hsum := ((makeHeap_perm freq).map HNode.freq).sum_eq
  rw [List.map_map] at hsum
  have hmap : (freq.map (HNode.freq ∘ fun p => HNode.leaf p.1 p.2)) = freq.map Prod.snd := by
    refine List.map_congr_left ?_
    intro p _
    rfl
  rw [hmap] at hsum
  simpa using hw.trans hsum

/-- Witness for C8: the frequency map `[('a',1), ('b',2)]` is non-empty and
satisfies the tree-building specification. -/
theorem huffman_C8_witness :
    ([('a', 1), ('b', 2)] : List (Char × Nat)) ≠ [] ∧
    (List.Perm (makeHeap [('a', 1), ('b', 2)])
        (([('a', 1), ('b', 2)] : List (Char × Nat)).map fun p => HNode.leaf p.1 p.2) ∧
      IsHeap (makeHeap [('a', 1), ('b', 2)]) ∧
      (∀ h x, IsHeap h → IsHeap (heappush h x) ∧ List.Perm (heappush h x) (x :: h)) ∧
      (∀ h n h', IsHeap h → heappop h = some (n, h') →
        IsHeap h' ∧ List.Perm h (n :: h') ∧ ∀ m ∈ h', n.freq ≤ m.freq) ∧
      (∀ l n1 n2 h1' h2', 1 < l.length → heappop l = some (n1, h1') →
        heappop h1' = some (n2, h2') →
        mergeNodes l = mergeNodes (heappush h2' (HNode.node (n1.freq + n2.freq) n1 n2))) ∧
      ∃ root, mergeNodes (makeHeap [('a', 1), ('b', 2)]) = [root] ∧
        root.freq = (([('a', 1), ('b', 2)] : List (Char × Nat)).map Prod.snd).sum) :=
  ⟨by decide, huffman_C8_tree_build [('a', 1), ('b', 2)] (by decide)⟩

/-- Claim C9: whenever the input text contains a whitespace symbol other than
space or newline (e.g. a tab), that symbol's persisted code-table line cannot
be split into two fields, so the table reload in `decode_text` fails and the
round trip fails instead of reconstructing the text. -/
theorem huffman_C9_ws_symbol (t : List Char) (h1 : t ≠ [])
    (hc : ∃ c ∈ t, isPySpace c = true ∧ c ≠ ' ' ∧ c ≠ '\n') :
    (∃ tbl, makeCodes (mergeNodes (makeHeap (makeFrequencyDict t))) = some tbl ∧
      parseLines (outputCodes tbl) = none) ∧
    roundTrip t = none := by
  obtain ⟨root, tbl, hroot, hmc, htbl, hnodup, hmemiff, hdigits, hpair, hsndnodup⟩ :=
    table_spec t h1
  obtain ⟨c, hct, hcws, hcsp, hcnl⟩ := hc
  have hckeys : c ∈ tbl.map Prod.fst := (hmemiff c).mpr hct
  obtain ⟨p, hp, hpc⟩ := List.mem_map.mp hckeys
  have hesc : escapeChar p.1 = [p.1] := by
    unfold escapeChar
    rw [if_neg (by rw [hpc]; exact hcnl), if_neg (by rw [hpc]; exact hcsp)]
  have hline : escapeChar p.1 ++ ' ' :: (p.2 ++ ['\n']) = p.1 :: ' ' :: (p.2 ++ ['\n']) := by
    rw [hesc]
    rfl
  have hlinemem : (p.1 :: ' ' :: (p.2 ++ ['\n'])) ∈ outputCodes tbl := by
    rw [← hline]
    exact List.mem_map_of_mem _ hp
  have hpnone : parseLine (p.1 :: ' ' :: (p.2 ++ ['\n'])) = none := by
    refine parseLine_ws_symbol p.1 p.2 (by rw [hpc]; exact hcws) ?_
    intro x hx
    rcases hdigits p hp x hx with h | h <;> subst h <;> decide
  have hplines : parseLines (outputCodes tbl) = none :=
    parseLines_none_of_mem _ _ hlinemem hpnone
  refine ⟨⟨tbl, hmc, hplines⟩, ?_⟩
  have hfold : foldUpd [] tbl = tbl := by
    have := foldUpd_fresh tbl [] hnodup (by intro k _; simp)
    simpa using this
  obtain ⟨E, hE⟩ := getEncodedText_isSome tbl t (fun x hx => (hmemiff x).mpr hx)
  have hEdig : ∀ x ∈ E, x = '0' ∨ x = '1' := getEncodedText_digits tbl hdigits t E hE
  have hcomp := compress_eq t h1 tbl E hmc hfold hE
  unfold roundTrip
  rw [hcomp]
  show decompress ((toChunks (padEncodedText E)).map binToNat)
    (foldUpd [] (tbl.map fun p => (p.2, [p.1]))) (outputCodes tbl) = none
  unfold decompress
  rw [toChunks_flatMap (padEncodedText E).length _ rfl (pad_length_mod E)
    (pad_digits E hEdig)]
  rw [removePadding_padEncodedText]
  show decodeText (foldUpd [] (tbl.map fun p => (p.2, [p.1]))) (outputCodes tbl) E = none
  unfold decodeText
  rw [hplines]

/-- Witness for C9: the text `"a\t"` contains a tab, and its round trip fails
with an unparseable code-table line. -/
theorem huffman_C9_witness :
    ((['a', '\t'] : List Char) ≠ [] ∧
      ∃ c ∈ (['a', '\t'] : List Char), isPySpace c = true ∧ c ≠ ' ' ∧ c ≠ '\n') ∧
    ((∃ tbl, makeCodes (mergeNodes (makeHeap (makeFrequencyDict ['a', '\t']))) = some tbl ∧
        parseLines (outputCodes tbl) = none) ∧
      roundTrip ['a', '\t'] = none) :=
  ⟨⟨by decide, by decide⟩, huffman_C9_ws_symbol ['a', '\t'] (by decide) (by decide)⟩

/-- Claim C10: `HeapNode.__eq__` returns `False` for a falsy operand but raises
`AttributeError` (via the nonexistent `self._class_`) for every truthy operand;
the branch is unreachable during compression, which succeeds on every non-empty
text because the heap routines compare nodes only through `__lt__`. -/
theorem huffman_C10_heapnode_eq :
    (∀ s, heapNodeEq s none = Except.ok false) ∧
    (∀ s o, heapNodeEq s (some o) = Except.error PyExc.attributeError) ∧
    (∀ t, t ≠ [] → (compress t).isSome) :=
  ⟨fun s => rfl, fun s o => rfl, fun t ht => compress_isSome t ht⟩

/-- Witness for C3: the padding specification instantiated at the one-bit
string `"1"` (extra padding 7). -/
theorem huffman_C3_witness :
    1 ≤ 8 - (['1'] : List Char).length % 8 ∧ 8 - (['1'] : List Char).length % 8 ≤ 8 ∧
    padEncodedText ['1']
      = zfill8 (natToBin (8 - (['1'] : List Char).length % 8)) ++ ['1']
        ++ List.replicate (8 - (['1'] : List Char).length % 8) '0' ∧
    (zfill8 (natToBin (8 - (['1'] : List Char).length % 8))).length = 8 ∧
    binToNat (zfill8 (natToBin (8 - (['1'] : List Char).length % 8)))
      = 8 - (['1'] : List Char).length % 8 ∧
    (padEncodedText ['1']).length % 8 = 0 ∧
    (getByteArray (padEncodedText ['1'])).isSome :=
  huffman_C3_padding ['1']

/-- Witness for C10: `__eq__` at concrete nodes, and a successful compression
of the concrete text `"ab"`. -/
theorem huffman_C10_witness :
    heapNodeEq (HNode.leaf 'a' 1) none = Except.ok false ∧
    heapNodeEq (HNode.leaf 'a' 1) (some (HNode.leaf 'b' 2))
      = Except.error PyExc.attributeError ∧
    ((['a', 'b'] : List Char) ≠ [] ∧ (compress ['a', 'b']).isSome) :=
  ⟨huffman_C10_heapnode_eq.1 (HNode.leaf 'a' 1),
    huffman_C10_heapnode_eq.2.1 (HNode.leaf 'a' 1) (HNode.leaf 'b' 2),
    by decide,
    huffman_C10_heapnode_eq.2.2 ['a', 'b'] (by decide)⟩
